import Mathlib

/-!
# Verification of the TEC datacore ingestion / retrieval core

Shallow embedding of the core functions of `tec_datacore` (chunker, PII
scrubber, embedder, ingestion pipeline, retrieval service) and proofs of the
behavioural properties stated in the specification.

Conventions:
* Python `int` values that are always non-negative in the code paths under
  study are modelled as `Nat`; truncated subtraction of `Nat` coincides with
  the code's explicit clamp-at-zero (`if i < 0: i = 0`).
* Float scores are modelled as `ℚ` (the code only adds, multiplies and
  divides finite values), with `ℝ` used where a square root is required.
* External collaborators (tokenizer, hash functions, vector store, remote
  embedding API, lexical scorer) are parameters of the embedded functions.
-/

/-! ## Chunker (`tec_datacore/ingest/chunkers.py`)

`chunk_text` resolves its `chunk_tokens` / `overlap` arguments through
Python's `x or default` idiom (so `None` *and* `0` both fall back to the
environment default), encodes the text to a token list and then runs

```
i = 0
while i < len(toks):
    j = min(i + chunk_tokens, len(toks))
    out.append(enc.decode(toks[i:j]))
    i = j - overlap
    if i < 0:
        i = 0
```

The tokenizer is abstracted by the token count `N = len(toks)`; the loop's
control flow depends on nothing else.  The while-loop is embedded with
explicit fuel: `chunkLoopGo fuel chunkT overlap N i cnt` returns
`some totalCount` when the loop exits within `fuel` iterations and `none`
when the fuel is exhausted, so non-termination of the Python loop is the
statement that the runner returns `none` for every fuel.
-/

/-- Python `arg or int(os.getenv(...))`: `None` (here `Option.none`) and `0`
both select the environment default. -/
def effArg (arg : Option Nat) (envDefault : Nat) : Nat :=
  match arg with
  | none => envDefault
  | some v => if v = 0 then envDefault else v

/-- The `while i < len(toks)` loop of `chunk_text`, with fuel.
`j := min (i + chunkT) N`; the update `i = j - overlap; if i < 0: i = 0`
is `Nat` truncated subtraction.  Returns the number of windows appended. -/
def chunkLoopGo (chunkT overlap N : Nat) : Nat → Nat → Nat → Option Nat
  | 0, _, _ => none
  | fuel + 1, i, cnt =>
    if i < N then
      chunkLoopGo chunkT overlap N fuel (min (i + chunkT) N - overlap) (cnt + 1)
    else
      some cnt

/-- Number of windows produced by `chunk_text` on a text of `N` tokens:
argument defaulting as in the source (`CHUNK_TOKENS` defaults to 800,
`CHUNK_OVERLAP` to 120), then the window loop from `i = 0`. -/
def chunk_textWindows (N : Nat) (chunkArg overlapArg : Option Nat)
    (envChunk envOverlap : Nat) (fuel : Nat) : Option Nat :=
  chunkLoopGo (effArg chunkArg envChunk) (effArg overlapArg envOverlap) N fuel 0 0

/-- Helper: with a positive overlap the window start can never reach `N`:
from any `i < N` the next start `min (i + chunkT) N - overlap` is again
`< N`, so the loop exhausts any amount of fuel. -/
theorem chunkLoopGo_none (chunkT overlap N : Nat)
    (hov : 1 ≤ overlap) (hN : 1 ≤ N) :
    ∀ fuel i cnt, i < N → chunkLoopGo chunkT overlap N fuel i cnt = none := by
  intro fuel
  induction fuel with
  | zero => intro i cnt _; rfl
  | succ fuel ih =>
    intro i cnt hi
    have hstep : min (i + chunkT) N - overlap < N := by
      have h1 : min (i + chunkT) N - overlap ≤ N - overlap :=
        Nat.sub_le_sub_right (Nat.min_le_right _ _) _
      exact lt_of_le_of_lt h1 (Nat.sub_lt hN hov)
    simp only [chunkLoopGo, if_pos hi]
    exact ih _ _ hstep

/-- C1.  With the default configuration (`chunk_size=800`, `overlap=120`)
the claim predicts `ceil (max (N-120) 0 / 680)` chunks — in particular one
chunk for `0 < N ≤ 800`.  The code instead never leaves the window loop for
any non-empty token list: once the window end `j` is clamped to `N`, the
next start is `N - 120` (clamped at `0`), which is still `< N`, so
`chunk_text` diverges instead of returning any chunks.  Formally: for every
`N ≥ 1` and every fuel, the loop runner returns `none`. -/
theorem chunk_text_defaults_diverges (N : Nat) (hN : 1 ≤ N) :
    ∀ fuel, chunk_textWindows N none none 800 120 fuel = none := by
  intro fuel
  unfold chunk_textWindows effArg
  exact chunkLoopGo_none 800 120 N (by norm_num) hN fuel 0 0 (Nat.lt_of_lt_of_le Nat.zero_lt_one hN)

/-- Witness for C1's theorem at `N = 1`, fuel 5. -/
theorem chunk_text_defaults_diverges_witness :
    1 ≤ 1 ∧ chunk_textWindows 1 none none 800 120 5 = none :=
  ⟨le_refl 1, chunk_text_defaults_diverges 1 (le_refl 1) 5⟩

/-- C2.  The claim asserts that for every configuration with
`chunk_size_tokens ≥ 1` and `0 ≤ overlap_tokens < chunk_size_tokens` the
chunking loop terminates with strictly increasing window starts.  In the
code the window start is updated to `min (i + chunkT) N - overlap`, which
for any effective `overlap ≥ 1` (note `overlap < chunkT` included) is a
value `< N`, so the loop never terminates on a non-empty token list: the
runner returns `none` for every fuel. -/
theorem chunk_text_loop_never_terminates (chunkT overlap N : Nat)
    (hov : 1 ≤ overlap) (hlt : overlap < chunkT) (hN : 1 ≤ N) :
    ∀ fuel cnt, chunkLoopGo chunkT overlap N fuel 0 cnt = none := by
  intro fuel cnt
  have _ := hlt
  exact chunkLoopGo_none chunkT overlap N hov hN fuel 0 cnt
    (Nat.lt_of_lt_of_le Nat.zero_lt_one hN)

/-- Witness for C2's theorem at `chunkT = 2`, `overlap = 1`, `N = 1`, fuel 3. -/
theorem chunk_text_loop_never_terminates_witness :
    1 ≤ 1 ∧ 1 < 2 ∧ 1 ≤ 1 ∧ chunkLoopGo 2 1 1 3 0 0 = none :=
  ⟨le_refl 1, by norm_num, le_refl 1,
    chunk_text_loop_never_terminates 2 1 1 (le_refl 1) (by norm_num) (le_refl 1) 3 0⟩

/-! ## Content-addressed ids (`tec_datacore/ingest/pipeline.py`)

`doc_id(s) = hashlib.sha1(s.encode()).hexdigest()`; the hash is abstracted
as a function parameter.  Every `ingest_*` call site derives the chunk id as
`doc_id(name + f"#{k}")`, modelled by `chunkKey`. -/

/-- `doc_id` with the SHA-1 hex digest abstracted. -/
def doc_id (sha1hex : String → String) (s : String) : String := sha1hex s


/-- Decimal digit as a character, Python `f"{k}"` style. -/
def digitChar (d : Nat) : Char :=
  match d with
  | 0 => '0' | 1 => '1' | 2 => '2' | 3 => '3' | 4 => '4'
  | 5 => '5' | 6 => '6' | 7 => '7' | 8 => '8' | 9 => '9'
  | _ => '*'

/-- Character list of Python `f"{k}"`: decimal digits, most significant
first, `"0"` for zero. -/
def natDecimalChars (n : Nat) : List Char :=
  if n = 0 then ['0'] else ((Nat.digits 10 n).map digitChar).reverse

/-- Python `f"{k}"` for a natural number. -/
def natDecimal (n : Nat) : String := ⟨natDecimalChars n⟩

/-- The pre-hash encoding `name + f"#{k}"` of an `ingest_*` call site. -/
def chunkKey (name : String) (k : Nat) : String :=
  name ++ "#" ++ natDecimal k

theorem natDecimal_data (n : Nat) : (natDecimal n).data = natDecimalChars n := rfl

theorem digitChar_inj {a b : Nat} (ha : a < 10) (hb : b < 10)
    (h : digitChar a = digitChar b) : a = b := by
  interval_cases a <;> interval_cases b <;> simp_all [digitChar]

theorem digitChar_ne_hash {a : Nat} (ha : a < 10) : digitChar a ≠ '#' := by
  interval_cases a <;> decide

theorem natDecimalChars_no_hash (n : Nat) : '#' ∉ natDecimalChars n := by
  unfold natDecimalChars
  by_cases h : n = 0
  · simp [h]
  · simp only [if_neg h]
    intro hmem
    rw [List.mem_reverse] at hmem
    obtain ⟨d, hd, hdc⟩ := List.mem_map.mp hmem
    exact digitChar_ne_hash (Nat.digits_lt_base (by norm_num) hd) hdc

theorem map_digitChar_inj :
    ∀ (L1 L2 : List Nat), (∀ d ∈ L1, d < 10) → (∀ d ∈ L2, d < 10) →
      L1.map digitChar = L2.map digitChar → L1 = L2 := by
  intro L1
  induction L1 with
  | nil => intro L2 _ _ h; cases L2 <;> simp_all
  | cons a as ih =>
    intro L2 h1 h2 h
    cases L2 with
    | nil => simp at h
    | cons b bs =>
      simp only [List.map_cons, List.cons.injEq] at h
      have hab : a = b :=
        digitChar_inj (h1 a (by simp)) (h2 b (by simp)) h.1
      have hrest : as = bs :=
        ih bs (fun d hd => h1 d (by simp [hd])) (fun d hd => h2 d (by simp [hd])) h.2
      rw [hab, hrest]

theorem natDecimalChars_inj {n m : Nat}
    (h : natDecimalChars n = natDecimalChars m) : n = m := by
  unfold natDecimalChars at h
  by_cases hn : n = 0 <;> by_cases hm : m = 0
  · omega
  · exfalso
    simp only [if_pos hn, if_neg hm] at h
    have hmap : (Nat.digits 10 m).map digitChar = ['0'] := by
      have := congrArg List.reverse h
      simpa using this.symm
    have hdig : Nat.digits 10 m = [0] := by
      have h0 : ([0] : List Nat).map digitChar = ['0'] := by simp [digitChar]
      exact map_digitChar_inj _ [0]
        (fun d hd => Nat.digits_lt_base (by norm_num) hd)
        (by intro d hd; simp at hd; omega) (hmap.trans h0.symm)
    have : m = 0 := by
      have := Nat.ofDigits_digits 10 m
      rw [hdig] at this
      simpa [Nat.ofDigits] using this.symm
    exact hm this
  · exfalso
    simp only [if_neg hn, if_pos hm] at h
    have hmap : (Nat.digits 10 n).map digitChar = ['0'] := by
      have := congrArg List.reverse h
      simpa using this
    have hdig : Nat.digits 10 n = [0] := by
      have h0 : ([0] : List Nat).map digitChar = ['0'] := by simp [digitChar]
      exact map_digitChar_inj _ [0]
        (fun d hd => Nat.digits_lt_base (by norm_num) hd)
        (by intro d hd; simp at hd; omega) (hmap.trans h0.symm)
    have : n = 0 := by
      have := Nat.ofDigits_digits 10 n
      rw [hdig] at this
      simpa [Nat.ofDigits] using this.symm
    exact hn this
  · simp only [if_neg hn, if_neg hm] at h
    have hmap : (Nat.digits 10 n).map digitChar = (Nat.digits 10 m).map digitChar :=
      List.reverse_injective h
    have hdig : Nat.digits 10 n = Nat.digits 10 m :=
      map_digitChar_inj _ _
        (fun d hd => Nat.digits_lt_base (by norm_num) hd)
        (fun d hd => Nat.digits_lt_base (by norm_num) hd) hmap
    calc n = Nat.ofDigits 10 (Nat.digits 10 n) := (Nat.ofDigits_digits 10 n).symm
      _ = Nat.ofDigits 10 (Nat.digits 10 m) := by rw [hdig]
      _ = m := Nat.ofDigits_digits 10 m

/-- Splitting a list at the last occurrence of a separator is unambiguous
when the suffixes are separator-free. -/
theorem append_sep_inj {α : Type} [DecidableEq α] (c : α) :
    ∀ (u1 u2 v1 v2 : List α), c ∉ u1 → c ∉ u2 →
      u1 ++ c :: v1 = u2 ++ c :: v2 → u1 = u2 ∧ v1 = v2 := by
  intro u1
  induction u1 with
  | nil =>
    intro u2 v1 v2 _ hu2 h
    cases u2 with
    | nil => simpa using h
    | cons x u2' =>
      exfalso
      simp only [List.nil_append, List.cons_append, List.cons.injEq] at h
      exact hu2 (by simp [← h.1])
  | cons x u1' ih =>
    intro u2 v1 v2 hu1 hu2 h
    cases u2 with
    | nil =>
      exfalso
      simp only [List.cons_append, List.nil_append, List.cons.injEq] at h
      exact hu1 (by simp [h.1])
    | cons y u2' =>
      simp only [List.cons_append, List.cons.injEq] at h
      have := ih u2' v1 v2 (fun hc => hu1 (by simp [hc]))
        (fun hc => hu2 (by simp [hc])) h.2
      exact ⟨by simp [h.1, this.1], this.2⟩

/-- C8.  The pre-hash encodings `name + "#" + str(index)` fed to `doc_id`
are collision free: equal encodings force equal names and equal indices
(the decimal digits of the index contain no `'#'`, so the final `'#'` is
always the separator).  Since `doc_id` is a function of this encoding
alone, identical `(name, index)` pairs always produce the same id and
distinct pairs produce distinct pre-hash strings. -/
theorem chunkKey_collision_free (n1 n2 : String) (k1 k2 : Nat)
    (h : chunkKey n1 k1 = chunkKey n2 k2) :
    n1 = n2 ∧ k1 = k2 ∧ '#' ∉ (natDecimal k1).data := by
  have hdata := congrArg String.data h
  simp only [chunkKey, String.data_append, natDecimal_data] at hdata
  simp only [List.append_assoc, List.singleton_append] at hdata
  have hrev := congrArg List.reverse hdata
  simp only [List.reverse_append, List.reverse_cons] at hrev
  have h1 : (natDecimalChars k1).reverse ++ '#' :: n1.data.reverse
      = (natDecimalChars k2).reverse ++ '#' :: n2.data.reverse := by
    simpa using hrev
  have hni := append_sep_inj '#' _ _ _ _
    (by rw [List.mem_reverse]; exact natDecimalChars_no_hash k1)
    (by rw [List.mem_reverse]; exact natDecimalChars_no_hash k2) h1
  have hk : k1 = k2 :=
    natDecimalChars_inj (List.reverse_injective hni.1)
  have hn : n1 = n2 := String.ext (List.reverse_injective hni.2)
  refine ⟨hn, hk, ?_⟩
  rw [natDecimal_data]
  exact natDecimalChars_no_hash k1

/-- Witness for C8's theorem: equal keys at a concrete input. -/
theorem chunkKey_collision_free_witness :
    "doc" = "doc" ∧ 7 = 7 ∧ '#' ∉ (natDecimal 7).data :=
  chunkKey_collision_free "doc" "doc" 7 7 rfl

/-! ## Blocklist filter (`tec_datacore/ingest/pipeline.py`)

`BLOCKLIST` is the comma-split of `BLOCKLIST_GLOBS`
(default `"**/secrets/**,**/*.key,**/.env"`) and

```
def blocked(path: str) -> bool:
    for pat in BLOCKLIST:
        if fnmatch.fnmatch(path, pat):
            return True
    return False
```

On POSIX `fnmatch.fnmatch` is case-preserving and translates the pattern
with `*` matching any character sequence (including `/`), `?` matching any
single character, and all other characters literally; the default patterns
use no `[...]` classes.  `globMatch pat s` is that matcher. -/

/-- `fnmatch`-style glob matching, with structural fuel so that the kernel
can evaluate it (each recursive call shrinks `p.length + s.length`, so the
fuel supplied by `globMatch` is never exhausted). -/
def globMatchGo : Nat → List Char → List Char → Bool
  | 0, _, _ => false
  | fuel + 1, p, s =>
    match p, s with
    | [], [] => true
    | [], _ :: _ => false
    | c :: ps, s =>
      if c = '*' then
        globMatchGo fuel ps s ||
          (match s with
           | [] => false
           | _ :: cs => globMatchGo fuel (c :: ps) cs)
      else
        match s with
        | [] => false
        | d :: ds => ((c = '?') || (c = d)) && globMatchGo fuel ps ds

/-- `fnmatch`-style glob matching: `*` matches any sequence (slashes
included), `?` any single character, other characters literally. -/
def globMatch (p s : List Char) : Bool :=
  globMatchGo (p.length + s.length + 1) p s

/-- `fnmatch.fnmatch(name, pat)` on a POSIX system. -/
def fnmatch (name pat : String) : Bool := globMatch pat.data name.data

/-- The default `BLOCKLIST_GLOBS` after comma-split and strip. -/
def BLOCKLIST_default : List String := ["**/secrets/**", "**/*.key", "**/.env"]

/-- `blocked`: first-match loop over the configured patterns. -/
def blocked (blocklist : List String) (path : String) : Bool :=
  match blocklist with
  | [] => false
  | pat :: rest => if fnmatch path pat then true else blocked rest path

/-- C10.  `blocked` is the order-independent disjunction of the per-pattern
`fnmatch` tests, and under the default patterns — each of which demands a
`/` before the sensitive component — the top-level paths
`"secrets/a.txt"`, `"a.key"` and `".env"` match no pattern and are not
blocked (while their nested counterparts are). -/
theorem blocked_iff_and_default_gaps :
    (∀ (blocklist : List String) (path : String),
      blocked blocklist path = true ↔ ∃ pat ∈ blocklist, fnmatch path pat = true)
    ∧ blocked BLOCKLIST_default "secrets/a.txt" = false
    ∧ blocked BLOCKLIST_default "a.key" = false
    ∧ blocked BLOCKLIST_default ".env" = false := by
  refine ⟨?_, by decide, by decide, by decide⟩
  intro blocklist path
  induction blocklist with
  | nil => simp [blocked]
  | cons pat rest ih =>
    by_cases h : fnmatch path pat
    · simp [blocked, h]
    · simp only [blocked, if_neg h, ih]
      constructor
      · rintro ⟨q, hq, hm⟩; exact ⟨q, by simp [hq], hm⟩
      · rintro ⟨q, hq, hm⟩
        rcases List.mem_cons.mp hq with rfl | hq'
        · exact absurd hm h
        · exact ⟨q, hq', hm⟩

/-! ## Embedder (`tec_datacore/ingest/embedder.py`)

`_embed_local` accumulates, per input string, a `dim`-entry vector
(`dim = 384` at every call site): weight 1 at bucket `sha1(ch) % dim` for
each character, weight 2 at bucket `md5(s[i:i+3]) % dim` for each 3-gram,
then divides by `math.sqrt(sum(v*v)) or 1.0`.  The two hashes are abstracted
as `hc : Char → Nat` and `ht : List Char → Nat`; the accumulated weights are
integers, so the raw vector is modelled as `List Nat` and only the final
division lives in `ℝ`.

`embed` routes between the remote backend and the local fallback with
`use_local = (model or "").lower() == "local" or not os.getenv("OPENAI_API_KEY")`;
the remote client (and whether the `openai` package imported) are abstract
parameters, and the `RuntimeError` of `_client_openai` is an `Except.error`. -/

/-- `vec[idx] += w`. -/
def bump (v : List Nat) (idx w : Nat) : List Nat :=
  v.set idx (v.getD idx 0 + w)

/-- The 3-character windows `s[i:i+3]` for `i in range(max(0, len(s)-2))`. -/
def triples : List Char → List (List Char)
  | a :: b :: c :: rest => [a, b, c] :: triples (b :: c :: rest)
  | _ => []

/-- Raw bag-of-hashes accumulation of `_embed_local` for one string. -/
def vecRaw (hc : Char → Nat) (ht : List Char → Nat) (dim : Nat)
    (s : List Char) : List Nat :=
  (triples s).foldl (fun v t => bump v (ht t % dim) 2)
    (s.foldl (fun v ch => bump v (hc ch % dim) 1) (List.replicate dim 0))

/-- `sum(v*v for v in vec)` on the raw integer vector. -/
def sumSqNat (l : List Nat) : Nat := (l.map (fun x => x * x)).sum

/-- `math.sqrt(S) or 1.0`: zero (exactly the case `S = 0`) falls back to 1. -/
noncomputable def pyNorm (S : Nat) : ℝ :=
  if S = 0 then 1 else Real.sqrt S

/-- One output vector of `_embed_local`. -/
noncomputable def embedLocalVec (hc : Char → Nat) (ht : List Char → Nat)
    (dim : Nat) (s : String) : List ℝ :=
  (vecRaw hc ht dim s.data).map
    (fun v : Nat => (v : ℝ) / pyNorm (sumSqNat (vecRaw hc ht dim s.data)))

/-- Squared L2 norm of a real vector. -/
def sumSqR (l : List ℝ) : ℝ := (l.map (fun x => x ^ 2)).sum

theorem bump_length (v : List Nat) (i w : Nat) : (bump v i w).length = v.length := by
  simp [bump]

theorem bump_sum (w : Nat) :
    ∀ (v : List Nat) (i : Nat), i < v.length → (bump v i w).sum = v.sum + w := by
  intro v
  induction v with
  | nil => intro i h; simp at h
  | cons a as ih =>
    intro i h
    cases i with
    | zero => simp [bump]; ring
    | succ j =>
      have hj : j < as.length := by simpa using h
      have := ih j hj
      simp only [bump, List.set_cons_succ, List.getD_cons_succ, List.sum_cons]
      simp only [bump] at this
      rw [this]; ring

theorem foldl_bump {α : Type} (f : α → Nat) (w dim : Nat) (hdim : 0 < dim) :
    ∀ (l : List α) (v : List Nat), v.length = dim →
      (l.foldl (fun v x => bump v (f x % dim) w) v).length = dim ∧
      (l.foldl (fun v x => bump v (f x % dim) w) v).sum = v.sum + w * l.length := by
  intro l
  induction l with
  | nil => intro v hv; simpa using hv
  | cons x xs ih =>
    intro v hv
    have hidx : f x % dim < v.length := by rw [hv]; exact Nat.mod_lt _ hdim
    have hlen : (bump v (f x % dim) w).length = dim := by rw [bump_length]; exact hv
    have := ih (bump v (f x % dim) w) hlen
    refine ⟨by simpa using this.1, ?_⟩
    simp only [List.foldl_cons]
    rw [this.2, bump_sum w v _ hidx]
    simp [List.length_cons, Nat.mul_succ]
    ring

theorem vecRaw_length (hc : Char → Nat) (ht : List Char → Nat) (dim : Nat)
    (hdim : 0 < dim) (s : List Char) : (vecRaw hc ht dim s).length = dim := by
  unfold vecRaw
  have h1 := foldl_bump hc 1 dim hdim s (List.replicate dim 0) (by simp)
  exact (foldl_bump ht 2 dim hdim (triples s) _ h1.1).1

theorem vecRaw_sum (hc : Char → Nat) (ht : List Char → Nat) (dim : Nat)
    (hdim : 0 < dim) (s : List Char) :
    (vecRaw hc ht dim s).sum = s.length + 2 * (triples s).length := by
  unfold vecRaw
  have h1 := foldl_bump hc 1 dim hdim s (List.replicate dim 0) (by simp)
  have h2 := (foldl_bump ht 2 dim hdim (triples s) _ h1.1).2
  rw [h2, h1.2]
  simp [Nat.one_mul]

theorem sumSqNat_eq_zero_iff (l : List Nat) : sumSqNat l = 0 ↔ l.sum = 0 := by
  unfold sumSqNat
  rw [List.sum_eq_zero_iff, List.sum_eq_zero_iff]
  constructor
  · intro h x hx
    have := h (x * x) (List.mem_map.mpr ⟨x, hx, rfl⟩)
    exact Nat.eq_zero_of_mul_eq_zero this |>.elim id id
  · intro h y hy
    obtain ⟨x, hx, rfl⟩ := List.mem_map.mp hy
    simp [h x hx]

theorem sumSqR_map_div (l : List Nat) (c : ℝ) :
    sumSqR (l.map (fun v : Nat => (v : ℝ) / c)) = (sumSqNat l : ℝ) / c ^ 2 := by
  induction l with
  | nil => simp [sumSqR, sumSqNat]
  | cons a as ih =>
    simp only [List.map_cons, sumSqR, List.sum_cons, sumSqNat] at *
    rw [ih]
    push_cast
    rw [div_pow, div_add_div_same, sq]

/-- C6 (amended).  Every vector the local fallback produces for a
*non-empty* input string has unit L2 norm: the raw accumulation gives each
character weight 1, so its entries cannot all vanish, the `or 1.0` guard is
not taken and the division by `sqrt(S)` yields squared norm `S / S = 1`. -/
theorem embedLocalVec_unit_norm (hc : Char → Nat) (ht : List Char → Nat)
    (dim : Nat) (hdim : 0 < dim) (s : String) (hs : s ≠ "") :
    sumSqR (embedLocalVec hc ht dim s) = 1 := by
  have hdata : s.data ≠ [] := by
    intro h; exact hs (by cases s; simp_all)
  have hsum : (vecRaw hc ht dim s.data).sum ≠ 0 := by
    rw [vecRaw_sum hc ht dim hdim]
    have : 0 < s.data.length := List.length_pos.mpr hdata
    omega
  have hS : sumSqNat (vecRaw hc ht dim s.data) ≠ 0 := by
    rw [Ne, sumSqNat_eq_zero_iff]; exact hsum
  unfold embedLocalVec
  rw [sumSqR_map_div]
  rw [pyNorm, if_neg hS]
  rw [Real.sq_sqrt (by positivity)]
  rw [div_self (by exact_mod_cast hS)]

/-- Witness for C6's amended theorem at `dim = 384`, `s = "a"`,
both hash functions constant 0. -/
theorem embedLocalVec_unit_norm_witness :
    0 < 384 ∧ ("a" : String) ≠ "" ∧
      sumSqR (embedLocalVec (fun _ => 0) (fun _ => 0) 384 "a") = 1 :=
  ⟨by norm_num, by decide,
    embedLocalVec_unit_norm (fun _ => 0) (fun _ => 0) 384 (by norm_num) "a" (by decide)⟩

/-- C6 counterexample.  For the empty string every bucket stays 0, the
norm guard (`or 1.0`) divides the zero vector by 1, and the returned
384-entry vector has squared norm 0, not 1: the claim's "including the
empty string" fails. -/
theorem embedLocalVec_empty_not_unit :
    sumSqR (embedLocalVec (fun _ => 0) (fun _ => 0) 384 "") ≠ 1 := by
  have hdata : ("" : String).data = [] := rfl
  have hraw : vecRaw (fun _ => 0) (fun _ => 0) 384 ("" : String).data
      = List.replicate 384 0 := by
    rw [hdata]; rfl
  unfold embedLocalVec
  rw [hraw, sumSqR_map_div]
  have : sumSqNat (List.replicate 384 0) = 0 := by
    rw [sumSqNat_eq_zero_iff, List.sum_replicate]; simp
  rw [this]
  norm_num

/-- Python `a or b` on strings-or-None: `None` and `""` select `b`. -/
def pyOrStr (a b : Option String) : Option String :=
  match a with
  | none => b
  | some s => if s = "" then b else some s

/-- Fixed-size batching `texts[i:i+n]` for `i in range(0, len(texts), n)`,
with structural fuel (`l.length` batches always suffice for `n ≥ 1`). -/
def chunksOfGo {α : Type} (n : Nat) : Nat → List α → List (List α)
  | 0, _ => []
  | _, [] => []
  | fuel + 1, l => l.take n :: chunksOfGo n fuel (l.drop n)

/-- The batches of size `n` of a list. -/
def chunksOf {α : Type} (n : Nat) (l : List α) : List (List α) :=
  chunksOfGo n l.length l

/-- `embed(texts, model)` of `embedder.py`.

* `remote model batch` abstracts `client.embeddings.create(...)`;
* `openaiAvailable` is whether `from openai import OpenAI` succeeded;
* `apiKey` is `os.getenv("OPENAI_API_KEY")` (with `none` standing for both
  an unset and an empty variable, `not os.getenv(...)`);
* `envModel` is `os.getenv("MODEL_EMBED")`.

Selection is exactly
`use_local = (model or "").lower() == "local" or not os.getenv("OPENAI_API_KEY")`;
`_client_openai`'s `RuntimeError` when the package is missing is the
`Except.error` branch.  (`noncomputable` only because the local vectors
live in `List ℝ`.) -/
noncomputable def embed (remote : String → List String → List (List ℝ))
    (openaiAvailable : Bool) (apiKey envModel : Option String)
    (hc : Char → Nat) (ht : List Char → Nat)
    (texts : List String) (modelArg : Option String) :
    Except String (List (List ℝ)) :=
  if texts = [] then .ok []
  else
    let model := pyOrStr modelArg envModel
    if (model.getD "").toLower = "local" ∨ apiKey = none then
      .ok (texts.map (embedLocalVec hc ht 384))
    else
      let modelName := (pyOrStr model (some "text-embedding-3-large")).getD ""
      if openaiAvailable then
        .ok ((chunksOf 128 texts).foldl (fun acc b => acc ++ remote modelName b) [])
      else
        .error "openai package not available; set MODEL_EMBED=local or install dependencies"

/-- C7 counterexample.  Remote backend selected (`model =
"text-embedding-3-large"`, not `"local"`) with no credential configured:
`embed` does not raise a configuration error — it silently returns local
fallback embeddings. -/
theorem embed_no_credential_silently_local :
    embed (fun _ _ => []) true none none (fun _ => 0) (fun _ => 0)
        ["x"] (some "text-embedding-3-large")
      = .ok [embedLocalVec (fun _ => 0) (fun _ => 0) 384 "x"] := by
  simp [embed]

/-- C7 (amended).  Whenever no credential is configured, `embed` never
errors: regardless of the selected model, the remote availability or the
input, it falls back to the deterministic local embedder (`use_local` is
true because `not os.getenv("OPENAI_API_KEY")` holds), and no configuration
error is surfaced at any point. -/
theorem embed_no_credential_falls_back (remote : String → List String → List (List ℝ))
    (openaiAvailable : Bool) (envModel : Option String)
    (hc : Char → Nat) (ht : List Char → Nat)
    (texts : List String) (modelArg : Option String) :
    embed remote openaiAvailable none envModel hc ht texts modelArg
      = .ok (texts.map (embedLocalVec hc ht 384)) := by
  by_cases h : texts = []
  · simp [embed, h]
  · simp [embed, h]

/-! ## Ingestion orchestrator rows (`tec_datacore/ingest/pipeline.py`)

Each `ingest_*` function iterates over its connector's `(name, text)`
pairs and, per document: skip if `blocked(name)`, skip if the text strips
to empty, optionally `pii_scrub`, chunk, skip if no chunks, then upsert
`(id, chunk, embedding, metadata)` rows with
`ids = [doc_id(name + f"#{k}") ...]`.

`ingest_fs`, `ingest_github` and `ingest_gdrive` all assemble
`{"source": name, "project": PROJECT_NAME, "category": path_category(name)}`
(the optional transcripts branch of `ingest_fs` assembles the same map);
`ingest_gmail` assembles `{"source": name}` only.  Connector enumeration,
scrubbing and chunking are abstract parameters; embeddings are irrelevant
to the metadata claim and omitted from the row. -/

/-- Python `str.strip()` (ASCII whitespace). -/
def pyStrip (s : String) : String :=
  ⟨((s.data.dropWhile Char.isWhitespace).reverse.dropWhile Char.isWhitespace).reverse⟩

/-- One `(id, document, metadata)` row of a `coll.upsert` call. -/
structure UpsertRow where
  id : String
  doc : String
  meta : List (String × String)
deriving DecidableEq, Repr

/-- Metadata of `ingest_fs` / `ingest_github` / `ingest_gdrive`. -/
def fsMeta (name project cat : String) : List (String × String) :=
  [("source", name), ("project", project), ("category", cat)]

/-- Metadata of `ingest_gmail`. -/
def gmailMeta (name : String) : List (String × String) :=
  [("source", name)]

/-- The rows of one `coll.upsert(documents=chunks, ..., ids=ids)` call:
`ids[k] = doc_id(name + f"#{k}")`, one shared metadata map. -/
def upsertRows (sha1hex : String → String) (name : String)
    (chunks : List String) (meta : List (String × String)) : List UpsertRow :=
  (List.range chunks.length).map
    (fun k => ⟨doc_id sha1hex (chunkKey name k), chunks.getD k "", meta⟩)

/-- Per-document body shared by `ingest_fs` / `ingest_github` /
`ingest_gdrive` (blocklist, empty-text skip, optional scrub, chunk,
empty-chunks skip, upsert with the three-key metadata). -/
def fsDocRows (sha1hex : String → String) (scrubOn : Bool)
    (pii : String → String) (chunker : String → List String)
    (blocklist : List String) (project : String) (pathCat : String → String)
    (d : String × String) : List UpsertRow :=
  if blocked blocklist d.1 then []
  else if pyStrip d.2 = "" then []
  else if chunker (if scrubOn then pii d.2 else d.2) = [] then []
  else upsertRows sha1hex d.1 (chunker (if scrubOn then pii d.2 else d.2))
    (fsMeta d.1 project (pathCat d.1))

/-- Per-document body of `ingest_gmail`: same skips, but the metadata map
carries only the `source` key. -/
def gmailDocRows (sha1hex : String → String) (scrubOn : Bool)
    (pii : String → String) (chunker : String → List String)
    (blocklist : List String) (d : String × String) : List UpsertRow :=
  if blocked blocklist d.1 then []
  else if pyStrip d.2 = "" then []
  else if chunker (if scrubOn then pii d.2 else d.2) = [] then []
  else upsertRows sha1hex d.1 (chunker (if scrubOn then pii d.2 else d.2))
    (gmailMeta d.1)

/-- All rows upserted by `ingest_fs` over its enumerated documents. -/
def ingest_fs_rows (sha1hex : String → String) (scrubOn : Bool)
    (pii : String → String) (chunker : String → List String)
    (blocklist : List String) (project : String) (pathCat : String → String)
    (docs : List (String × String)) : List UpsertRow :=
  docs.bind (fsDocRows sha1hex scrubOn pii chunker blocklist project pathCat)

/-- All rows upserted by `ingest_github`. -/
def ingest_github_rows (sha1hex : String → String) (scrubOn : Bool)
    (pii : String → String) (chunker : String → List String)
    (blocklist : List String) (project : String) (pathCat : String → String)
    (docs : List (String × String)) : List UpsertRow :=
  docs.bind (fsDocRows sha1hex scrubOn pii chunker blocklist project pathCat)

/-- All rows upserted by `ingest_gdrive`. -/
def ingest_gdrive_rows (sha1hex : String → String) (scrubOn : Bool)
    (pii : String → String) (chunker : String → List String)
    (blocklist : List String) (project : String) (pathCat : String → String)
    (docs : List (String × String)) : List UpsertRow :=
  docs.bind (fsDocRows sha1hex scrubOn pii chunker blocklist project pathCat)

/-- All rows upserted by `ingest_gmail`. -/
def ingest_gmail_rows (sha1hex : String → String) (scrubOn : Bool)
    (pii : String → String) (chunker : String → List String)
    (blocklist : List String) (docs : List (String × String)) : List UpsertRow :=
  docs.bind (gmailDocRows sha1hex scrubOn pii chunker blocklist)

/-- Does a metadata map carry all of `source`, `project`, `category`? -/
def hasKeys3 (m : List (String × String)) : Bool :=
  (m.map Prod.fst).contains "source" && (m.map Prod.fst).contains "project"
    && (m.map Prod.fst).contains "category"

theorem fsDocRows_meta (sha1hex : String → String) (scrubOn : Bool)
    (pii : String → String) (chunker : String → List String)
    (blocklist : List String) (project : String) (pathCat : String → String)
    (d : String × String) (r : UpsertRow)
    (hr : r ∈ fsDocRows sha1hex scrubOn pii chunker blocklist project pathCat d) :
    r.meta = fsMeta d.1 project (pathCat d.1) := by
  by_cases h1 : blocked blocklist d.1
  · simp [fsDocRows, h1] at hr
  by_cases h2 : pyStrip d.2 = ""
  · simp [fsDocRows, h1, h2] at hr
  by_cases h3 : chunker (if scrubOn then pii d.2 else d.2) = []
  · simp [fsDocRows, h1, h2, h3] at hr
  simp only [fsDocRows, h1, h2, h3, if_false, if_neg, Bool.false_eq_true,
    not_false_eq_true] at hr
  obtain ⟨k, _, rfl⟩ := List.mem_map.mp hr
  rfl

theorem gmailDocRows_meta (sha1hex : String → String) (scrubOn : Bool)
    (pii : String → String) (chunker : String → List String)
    (blocklist : List String) (d : String × String) (r : UpsertRow)
    (hr : r ∈ gmailDocRows sha1hex scrubOn pii chunker blocklist d) :
    r.meta = gmailMeta d.1 := by
  by_cases h1 : blocked blocklist d.1
  · simp [gmailDocRows, h1] at hr
  by_cases h2 : pyStrip d.2 = ""
  · simp [gmailDocRows, h1, h2] at hr
  by_cases h3 : chunker (if scrubOn then pii d.2 else d.2) = []
  · simp [gmailDocRows, h1, h2, h3] at hr
  simp only [gmailDocRows, h1, h2, h3, if_false, if_neg, Bool.false_eq_true,
    not_false_eq_true] at hr
  obtain ⟨k, _, rfl⟩ := List.mem_map.mp hr
  rfl

/-- C9 (amended).  Every row upserted by the filesystem, hosted-repo and
cloud-drive ingestors carries metadata with all three keys
`source`, `project`, `category`; the mailbox ingestor's rows carry only
the `source` key (so the three-key invariant does *not* extend to
`ingest_gmail`). -/
theorem ingest_metadata_keys (sha1hex : String → String) (scrubOn : Bool)
    (pii : String → String) (chunker : String → List String)
    (blocklist : List String) (project : String) (pathCat : String → String)
    (fdocs hdocs gdocs mdocs : List (String × String)) :
    (ingest_fs_rows sha1hex scrubOn pii chunker blocklist project pathCat fdocs).all
        (fun r => hasKeys3 r.meta) = true
  ∧ (ingest_github_rows sha1hex scrubOn pii chunker blocklist project pathCat hdocs).all
        (fun r => hasKeys3 r.meta) = true
  ∧ (ingest_gdrive_rows sha1hex scrubOn pii chunker blocklist project pathCat gdocs).all
        (fun r => hasKeys3 r.meta) = true
  ∧ (ingest_gmail_rows sha1hex scrubOn pii chunker blocklist mdocs).all
        (fun r => r.meta.map Prod.fst = ["source"]) = true := by
  refine ⟨?_, ?_, ?_, ?_⟩
  · rw [List.all_eq_true]
    intro r hr
    obtain ⟨d, _, hd⟩ := List.mem_bind.mp hr
    rw [fsDocRows_meta _ _ _ _ _ _ _ _ _ hd]
    rfl
  · rw [List.all_eq_true]
    intro r hr
    obtain ⟨d, _, hd⟩ := List.mem_bind.mp hr
    rw [fsDocRows_meta _ _ _ _ _ _ _ _ _ hd]
    rfl
  · rw [List.all_eq_true]
    intro r hr
    obtain ⟨d, _, hd⟩ := List.mem_bind.mp hr
    rw [fsDocRows_meta _ _ _ _ _ _ _ _ _ hd]
    rfl
  · rw [List.all_eq_true]
    intro r hr
    obtain ⟨d, _, hd⟩ := List.mem_bind.mp hr
    rw [gmailDocRows_meta _ _ _ _ _ _ _ hd]
    simp [gmailMeta]

/-- C9 counterexample.  A concrete gmail message whose single upserted row
lacks the `project` (and `category`) key: the claimed three-key invariant
fails for the mailbox ingestor. -/
theorem ingest_gmail_row_missing_keys :
    (ingest_gmail_rows (fun s => s) false (fun t => t) (fun t => [t]) []
        [("msg-1", "hello")]).all (fun r => hasKeys3 r.meta) = false := by
  decide

/-! ## Retrieval / rerank service (`tec_datacore/server/rag_api.py`)

`search(q)` guards only on the query text (`if not q.q.strip(): return
{"results": []}`), then always queries the vector store for
`n_results = q.k * RERANK_CAND_MULT if RERANK_ENABLE else q.k` candidates.
The store (an external collaborator) is modelled as the full
nearest-neighbour candidate list for the query, `coll.query(n)` as its
`n`-prefix; `(text, source, distance)` triples are `Cand`.  Scores live in
`ℚ` (the float expressions used at `alpha ∈ {0, 1}` are exact).  The
RapidFuzz lexical score of candidate `i` (already normalised by 100) is an
abstract `lex : Nat → ℚ`; `rfAvail` is whether the `rapidfuzz` import
succeeded.  `combined.sort(reverse=True, key=lambda x: x[0])` is Python's
stable descending sort by first component, `pySortDesc`.  The first
component of the result counts `coll.query` calls (`1` exactly when the
store is consulted). -/

/-- One vector-store candidate: chunk text, `source` metadata, distance. -/
structure Cand where
  text : String
  source : Option String
  dist : ℚ
deriving DecidableEq, Repr

/-- Default used only for out-of-range `getD` (never reached in bounds). -/
def candDflt : Cand := ⟨"", none, 0⟩

/-- One entry of the returned `results` list. -/
structure SearchHit where
  score : ℚ
  source : Option String
  text : String
deriving DecidableEq, Repr

/-- `1.0 / (1.0 + d)`. -/
def vecScore (d : ℚ) : ℚ := 1 / (1 + d)

/-- Insertion step of a stable descending sort by first component: a new
element passes every earlier element with a `≥` score and lands before the
first strictly smaller one — later elements never overtake equal scores. -/
def insertDesc : List (ℚ × Nat) → (ℚ × Nat) → List (ℚ × Nat)
  | [], x => [x]
  | y :: ys, x => if x.1 ≤ y.1 then y :: insertDesc ys x else x :: y :: ys

/-- Python's `list.sort(reverse=True, key=lambda x: x[0])`: a stable
descending sort by first component (all stable sorts agree, so insertion
sort models Timsort). -/
def pySortDesc (l : List (ℚ × Nat)) : List (ℚ × Nat) :=
  l.foldl insertDesc []

/-- The `combined` list: `(alpha * vec + (1 - alpha) * lex, i)` for each
candidate index `i`. -/
def combinedList (alpha : ℚ) (lex : Nat → ℚ) (cands : List Cand) :
    List (ℚ × Nat) :=
  (List.range cands.length).map
    (fun i => (alpha * vecScore ((cands.getD i candDflt).dist) + (1 - alpha) * lex i, i))

/-- `search`: returns (number of `coll.query` calls, results). -/
def searchResults (rerankEnable : Bool) (alpha : ℚ) (candMult : Nat)
    (rfAvail : Bool) (lex : Nat → ℚ) (store : List Cand) (q : String)
    (k : Nat) : Nat × List SearchHit :=
  if pyStrip q = "" then (0, [])
  else
    let n := if rerankEnable then k * candMult else k
    let cands := store.take n
    if rerankEnable ∧ rfAvail = true ∧ 0 < cands.length then
      (1, ((pySortDesc (combinedList alpha lex cands)).take k).map
        (fun fi => ⟨fi.1, (cands.getD fi.2 candDflt).source,
          (cands.getD fi.2 candDflt).text⟩))
    else
      (1, (cands.take k).map (fun c => ⟨vecScore c.dist, c.source, c.text⟩))

/-- The vector-only result of the spec: candidates in ascending-distance
order, scored `1/(1+d)`, truncated to `k`. -/
def vectorOnlyResult (store : List Cand) (k : Nat) : List SearchHit :=
  (store.take k).map (fun c => ⟨vecScore c.dist, c.source, c.text⟩)

/-- The pure-lexical ordering of the spec: the candidate pool ranked by the
lexical score alone (stably, vector rank breaking ties), truncated to `k`. -/
def pureLexResult (lex : Nat → ℚ) (store : List Cand) (k candMult : Nat) :
    List SearchHit :=
  ((pySortDesc ((List.range (store.take (k * candMult)).length).map
      (fun i => (lex i, i)))).take k).map
    (fun fi => ⟨fi.1, ((store.take (k * candMult)).getD fi.2 candDflt).source,
      ((store.take (k * candMult)).getD fi.2 candDflt).text⟩)

/-- C4 counterexample.  With a non-empty query and `k = 0` the guard is not
taken: `search` still issues a vector-store query (first component `1`),
contradicting "returns empty immediately without querying the store
whenever `k ≤ 0`". -/
theorem search_k_zero_still_queries :
    searchResults false (1/2) 3 false (fun _ => 0)
        [⟨"chunk", some "src", 1⟩] "a" 0 ≠ (0, []) := by
  decide

/-- C4 (amended).  `search` short-circuits to `(no store query, [])`
exactly on empty/whitespace-only query text; there is no `k ≤ 0` guard:
for any non-empty query — whatever `k`, including `0` — the vector store
is queried (once), though for `k = 0` the returned list is still empty
because zero candidates are requested. -/
theorem search_empty_query_guard (rerankEnable : Bool) (alpha : ℚ)
    (candMult : Nat) (rfAvail : Bool) (lex : Nat → ℚ) (store : List Cand)
    (q : String) (k : Nat) :
    (pyStrip q = "" →
      searchResults rerankEnable alpha candMult rfAvail lex store q k = (0, []))
  ∧ (pyStrip q ≠ "" →
      (searchResults rerankEnable alpha candMult rfAvail lex store q k).1 = 1)
  ∧ (pyStrip q ≠ "" →
      (searchResults rerankEnable alpha candMult rfAvail lex store q 0).2 = []) := by
  refine ⟨fun h => by simp [searchResults, h], fun h => ?_, fun h => ?_⟩
  · unfold searchResults
    rw [if_neg h]
    by_cases hbr : rerankEnable = true ∧ rfAvail = true
        ∧ 0 < (store.take (if rerankEnable then k * candMult else k)).length
    · simp only [if_pos hbr]
    · simp only [if_neg hbr]
  · unfold searchResults
    rw [if_neg h]
    by_cases hbr : rerankEnable = true ∧ rfAvail = true
        ∧ 0 < (store.take (if rerankEnable then 0 * candMult else 0)).length
    · exfalso
      rcases hbr with ⟨hre, _, hlen⟩
      rw [hre] at hlen
      simp at hlen
    · simp only [if_neg hbr]
      simp

/-- Witness for C4's amended theorem: both guards exercised concretely. -/
theorem search_empty_query_guard_witness :
    searchResults false (1/2) 3 false (fun _ => 0)
        [⟨"chunk", some "src", 1⟩] "  " 8 = (0, [])
  ∧ (searchResults false (1/2) 3 false (fun _ => 0)
        [⟨"chunk", some "src", 1⟩] "a" 8).1 = 1
  ∧ (searchResults false (1/2) 3 false (fun _ => 0)
        [⟨"chunk", some "src", 1⟩] "a" 0).2 = [] :=
  ⟨(search_empty_query_guard false (1/2) 3 false (fun _ => 0)
      [⟨"chunk", some "src", 1⟩] "  " 8).1 (by decide),
   (search_empty_query_guard false (1/2) 3 false (fun _ => 0)
      [⟨"chunk", some "src", 1⟩] "a" 8).2.1 (by decide),
   (search_empty_query_guard false (1/2) 3 false (fun _ => 0)
      [⟨"chunk", some "src", 1⟩] "a" 0).2.2 (by decide)⟩

/-- Sorted-descending-with-stable-ties invariant of the sorted `combined`
list: scores never increase, and equal scores keep ascending vector rank. -/
def SKey (a b : ℚ × Nat) : Prop := b.1 ≤ a.1 ∧ (a.1 = b.1 → a.2 < b.2)

theorem insertDesc_append (x : ℚ × Nat) :
    ∀ acc : List (ℚ × Nat), (∀ y ∈ acc, x.1 ≤ y.1) →
      insertDesc acc x = acc ++ [x] := by
  intro acc
  induction acc with
  | nil => intro _; rfl
  | cons y ys ih =>
    intro h
    unfold insertDesc
    rw [if_pos (h y (by simp))]
    rw [ih (fun z hz => h z (by simp [hz]))]
    rfl

theorem foldl_insertDesc_sorted :
    ∀ (l acc : List (ℚ × Nat)), l.Pairwise (fun a b => b.1 ≤ a.1) →
      (∀ y ∈ acc, ∀ x ∈ l, x.1 ≤ y.1) →
      List.foldl insertDesc acc l = acc ++ l := by
  intro l
  induction l with
  | nil => intro acc _ _; simp
  | cons x xs ih =>
    intro acc hp hcross
    rw [List.foldl_cons,
      insertDesc_append x acc (fun y hy => hcross y hy x (by simp)),
      ih (acc ++ [x]) hp.tail ?_]
    · simp
    · intro y hy z hz
      rcases List.mem_append.mp hy with hy' | hy'
      · exact hcross y hy' z (by simp [hz])
      · rw [List.mem_singleton.mp hy']
        exact List.rel_of_pairwise_cons hp hz

/-- A list already sorted descending by score is a fixed point of the
stable sort. -/
theorem pySortDesc_sorted_eq (l : List (ℚ × Nat))
    (h : l.Pairwise (fun a b => b.1 ≤ a.1)) : pySortDesc l = l := by
  unfold pySortDesc
  rw [foldl_insertDesc_sorted l [] h (by simp)]
  rfl

theorem insertDesc_skey (x : ℚ × Nat) :
    ∀ acc : List (ℚ × Nat), acc.Pairwise SKey → (∀ y ∈ acc, y.2 < x.2) →
      (insertDesc acc x).Pairwise SKey ∧
      ∀ z ∈ insertDesc acc x, z = x ∨ z ∈ acc := by
  intro acc
  induction acc with
  | nil =>
    intro _ _
    refine ⟨List.pairwise_singleton _ _, ?_⟩
    intro z hz
    left
    simpa [insertDesc] using hz
  | cons y ys ih =>
    intro hp hidx
    have hys := ih hp.tail (fun z hz => hidx z (by simp [hz]))
    unfold insertDesc
    by_cases hle : x.1 ≤ y.1
    · rw [if_pos hle]
      refine ⟨List.pairwise_cons.mpr ⟨?_, hys.1⟩, ?_⟩
      · intro z hz
        rcases hys.2 z hz with rfl | hz'
        · exact ⟨hle, fun he => hidx y (by simp) ⟩
        · exact List.rel_of_pairwise_cons hp hz'
      · intro z hz
        rcases List.mem_cons.mp hz with rfl | hz'
        · simp
        · rcases hys.2 z hz' with rfl | hz''
          · simp
          · simp [hz'']
    · rw [if_neg hle]
      push_neg at hle
      refine ⟨List.pairwise_cons.mpr ⟨?_, hp⟩, by intro z hz; simpa using hz⟩
      intro z hz
      rcases List.mem_cons.mp hz with rfl | hz'
      · exact ⟨le_of_lt hle, fun he => absurd he.symm (ne_of_lt hle)⟩
      · have hyz := List.rel_of_pairwise_cons hp hz'
        have hzx : z.1 < x.1 := lt_of_le_of_lt hyz.1 hle
        exact ⟨le_of_lt hzx, fun he => absurd he.symm (ne_of_lt hzx)⟩

theorem foldl_insertDesc_skey :
    ∀ (l acc : List (ℚ × Nat)), acc.Pairwise SKey →
      (∀ y ∈ acc, ∀ x ∈ l, y.2 < x.2) →
      l.Pairwise (fun a b => a.2 < b.2) →
      (List.foldl insertDesc acc l).Pairwise SKey := by
  intro l
  induction l with
  | nil => intro acc hacc _ _; simpa using hacc
  | cons x xs ih =>
    intro acc hacc hcross hl
    rw [List.foldl_cons]
    have hins := insertDesc_skey x acc hacc (fun y hy => hcross y hy x (by simp))
    refine ih (insertDesc acc x) hins.1 ?_ hl.tail
    intro y hy z hz
    rcases hins.2 y hy with rfl | hy'
    · exact List.rel_of_pairwise_cons hl hz
    · exact hcross y hy' z (by simp [hz])

/-- Stability of the embedded Python sort: when input ranks strictly
increase, equal scores in the output keep ascending rank order. -/
theorem pySortDesc_skey (l : List (ℚ × Nat))
    (h : l.Pairwise (fun a b => a.2 < b.2)) : (pySortDesc l).Pairwise SKey :=
  foldl_insertDesc_skey l [] (List.Pairwise.nil) (by simp) h

theorem combinedList_snd_increasing (alpha : ℚ) (lex : Nat → ℚ)
    (cands : List Cand) :
    (combinedList alpha lex cands).Pairwise (fun a b => a.2 < b.2) := by
  unfold combinedList
  rw [List.pairwise_map]
  exact List.pairwise_lt_range _

theorem combinedList_alpha_one (lex : Nat → ℚ) (cands : List Cand) :
    combinedList 1 lex cands
      = (List.range cands.length).map
          (fun i => (vecScore ((cands.getD i candDflt).dist), i)) := by
  unfold combinedList
  refine List.map_congr_left ?_
  intro i _
  rw [Prod.mk.injEq]
  exact ⟨by ring, rfl⟩

theorem combinedList_alpha_zero (lex : Nat → ℚ) (cands : List Cand) :
    combinedList 0 lex cands
      = (List.range cands.length).map (fun i => (lex i, i)) := by
  unfold combinedList
  refine List.map_congr_left ?_
  intro i _
  rw [Prod.mk.injEq]
  exact ⟨by ring, rfl⟩

theorem vecScore_anti {a b : ℚ} (ha : 0 ≤ a) (hab : a ≤ b) :
    vecScore b ≤ vecScore a :=
  one_div_le_one_div_of_le (by linarith) (by linarith)

/-- With ascending non-negative distances, the `alpha = 1` combined list is
already descending by score. -/
theorem vec_combined_sorted (cands : List Cand)
    (hs : cands.Pairwise (fun a b => a.dist ≤ b.dist))
    (hn : ∀ c ∈ cands, 0 ≤ c.dist) :
    ((List.range cands.length).map
        (fun i => (vecScore ((cands.getD i candDflt).dist), i))).Pairwise
      (fun a b => b.1 ≤ a.1) := by
  rw [List.pairwise_map]
  refine (List.pairwise_lt_range _).imp_of_mem ?_
  intro i j hi hj hij
  rw [List.mem_range] at hi hj
  simp only
  rw [List.getD_eq_getElem _ _ hi, List.getD_eq_getElem _ _ hj]
  apply vecScore_anti
  · exact hn _ (List.getElem_mem _)
  · exact List.pairwise_iff_getElem.mp hs i j hi hj hij

theorem vector_take_map_eq (store : List Cand) (k n : Nat) (hkn : k ≤ n) :
    (((List.range (store.take n).length).map
        (fun i => (vecScore (((store.take n).getD i candDflt).dist), i))).take k).map
      (fun fi => (⟨fi.1, ((store.take n).getD fi.2 candDflt).source,
        ((store.take n).getD fi.2 candDflt).text⟩ : SearchHit))
    = vectorOnlyResult store k := by
  rw [← List.map_take, List.take_range, List.map_map]
  unfold vectorOnlyResult
  apply List.ext_getElem
  · simp only [List.length_map, List.length_range, List.length_take]
    omega
  · intro i h1 h2
    simp only [List.length_map, List.length_range, List.length_take] at h1 h2
    have hi1 : i < (store.take n).length := by
      simp only [List.length_take]; omega
    have histore : i < store.length := by omega
    simp only [List.getElem_map, List.getElem_range, Function.comp_apply]
    rw [List.getD_eq_getElem _ _ hi1]
    simp [List.getElem_take]

theorem searchResults_rerank_eq (alpha : ℚ) (candMult : Nat) (lex : Nat → ℚ)
    (store : List Cand) (q : String) (k : Nat) (hq : pyStrip q ≠ "")
    (hlen : 0 < (store.take (k * candMult)).length) :
    searchResults true alpha candMult true lex store q k
      = (1, ((pySortDesc (combinedList alpha lex (store.take (k * candMult)))).take k).map
          (fun fi => ⟨fi.1, ((store.take (k * candMult)).getD fi.2 candDflt).source,
            ((store.take (k * candMult)).getD fi.2 candDflt).text⟩)) := by
  unfold searchResults
  rw [if_neg hq]
  simp only [eq_self_iff_true, if_true, true_and]
  rw [if_pos hlen]

theorem searchResults_rerank_empty (alpha : ℚ) (candMult : Nat) (lex : Nat → ℚ)
    (store : List Cand) (q : String) (k : Nat) (hq : pyStrip q ≠ "")
    (hlen : ¬ 0 < (store.take (k * candMult)).length) :
    searchResults true alpha candMult true lex store q k
      = (1, ((store.take (k * candMult)).take k).map
          (fun c => ⟨vecScore c.dist, c.source, c.text⟩)) := by
  unfold searchResults
  rw [if_neg hq]
  simp only [eq_self_iff_true, if_true, true_and]
  rw [if_neg hlen]

/-- C3.  With reranking enabled (and the lexical scorer importable):
`alpha = 1` reproduces exactly the vector-only result (ascending-distance
candidates scored `1/(1+d)`, truncated to `k`); `alpha = 0` reproduces the
pure-lexical ordering; and for any `alpha`, whenever two candidates tie on
the fused score, the sorted `combined` list that `search` returns its
prefix of keeps the candidate with the smaller original vector rank first
(stability of `list.sort(reverse=True)`). Hypotheses: the store returns
distances in ascending order, distances are non-negative, the candidate
multiplier is ≥ 1 (enforced by `max(1, ...)` in the source), and the query
is non-empty. -/
theorem search_rerank_degeneracy (store : List Cand) (lex : Nat → ℚ)
    (q : String) (k candMult : Nat) (alpha : ℚ)
    (hsorted : store.Pairwise (fun a b => a.dist ≤ b.dist))
    (hnonneg : ∀ c ∈ store, 0 ≤ c.dist)
    (hmult : 1 ≤ candMult)
    (hq : pyStrip q ≠ "") :
    ((searchResults true 1 candMult true lex store q k).2 = vectorOnlyResult store k)
  ∧ ((searchResults true 0 candMult true lex store q k).2
      = pureLexResult lex store k candMult)
  ∧ (pySortDesc (combinedList alpha lex (store.take (k * candMult)))).Pairwise
      (fun a b => a.1 = b.1 → a.2 < b.2) := by
  have hkn : k ≤ k * candMult := le_mul_of_one_le_right (Nat.zero_le k) hmult
  have hcands_sorted : (store.take (k * candMult)).Pairwise
      (fun a b => a.dist ≤ b.dist) := hsorted.sublist (List.take_sublist _ _)
  have hcands_nonneg : ∀ c ∈ store.take (k * candMult), 0 ≤ c.dist :=
    fun c hc => hnonneg c ((List.take_sublist _ _).subset hc)
  refine ⟨?_, ?_, ?_⟩
  · by_cases hlen : 0 < (store.take (k * candMult)).length
    · rw [searchResults_rerank_eq 1 candMult lex store q k hq hlen]
      rw [combinedList_alpha_one,
        pySortDesc_sorted_eq _ (vec_combined_sorted _ hcands_sorted hcands_nonneg)]
      exact vector_take_map_eq store k (k * candMult) hkn
    · rw [searchResults_rerank_empty 1 candMult lex store q k hq hlen]
      have h0 : (store.take (k * candMult)).length = 0 := by omega
      have hsk : (store.take k).length = 0 := by
        rw [List.length_take] at h0 ⊢
        omega
      rw [List.eq_nil_of_length_eq_zero h0]
      unfold vectorOnlyResult
      rw [List.eq_nil_of_length_eq_zero hsk]
      simp
  · by_cases hlen : 0 < (store.take (k * candMult)).length
    · rw [searchResults_rerank_eq 0 candMult lex store q k hq hlen,
        combinedList_alpha_zero]
      rfl
    · rw [searchResults_rerank_empty 0 candMult lex store q k hq hlen]
      have h0 : (store.take (k * candMult)).length = 0 := by omega
      unfold pureLexResult
      rw [List.eq_nil_of_length_eq_zero h0]
      simp [pySortDesc]
  · exact (pySortDesc_skey _ (combinedList_snd_increasing alpha lex _)).imp
      (fun h => h.2)

/-- Witness for C3's theorem: concrete two-candidate store with ascending
non-negative distances, `k = 1`, `candMult = 3`. -/
theorem search_rerank_degeneracy_witness :
    ((searchResults true 1 3 true (fun _ => 0)
        [⟨"a", none, 0⟩, ⟨"b", none, 1⟩] "x" 1).2
      = vectorOnlyResult [⟨"a", none, 0⟩, ⟨"b", none, 1⟩] 1)
  ∧ ((searchResults true 0 3 true (fun _ => 0)
        [⟨"a", none, 0⟩, ⟨"b", none, 1⟩] "x" 1).2
      = pureLexResult (fun _ => 0) [⟨"a", none, 0⟩, ⟨"b", none, 1⟩] 1 3)
  ∧ (pySortDesc (combinedList (1/2) (fun _ => 0)
      ([⟨"a", none, 0⟩, ⟨"b", none, 1⟩].take (1 * 3)))).Pairwise
      (fun a b => a.1 = b.1 → a.2 < b.2) :=
  search_rerank_degeneracy [⟨"a", none, 0⟩, ⟨"b", none, 1⟩] (fun _ => 0)
    "x" 1 3 (1/2) (by decide) (by decide) (by decide) (by decide)

/-! ## PII scrubber (`tec_datacore/ingest/scrub.py`)

`pii_scrub` is the ordered composition of three `re.sub` substitutions,
each replacing every (leftmost, non-overlapping) match with `[REDACTED]`:

```
EMAIL   = [A-Za-z0-9._%+-]+@[A-Za-z0-9.-]+\.[A-Za-z]{2,}
PHONE   = (?:(?:(?:\+?1)[ -]?)?(?:\(\d{3}\)|\d{3})[ -]?)?\d{3}[ -]?\d{4}
KEYLIKE = (?i)\b(sk-[A-Za-z0-9]{10,}|ghp_[A-Za-z0-9]{20,}|AIza[0-9A-Za-z_-]{20,})\b
```

The regex fragment language actually used — character classes with greedy
counted repetition, literals, concatenation, prefer-left alternation,
greedy option, and the word boundary `\b` — is embedded as `RE`, with a
continuation-passing backtracking matcher `M` that mirrors the Python
engine's preference order (greedy repetitions try the longest count first,
alternation tries the left branch first, `x?` tries presence first), and
`reSub` mirrors `re.sub`'s left-to-right scan over the *original* string:
matching always sees original-string context, and the scanner resumes
right after each match.  Character classes are the ASCII ranges written in
the patterns (`\d`, `\w`-ness for `\b` and case folding are modelled at
ASCII level, which is exact for the byte-range classes these patterns
use). -/

/-- Regex fragment language of `scrub.py`'s three patterns. -/
inductive RE : Type
  | cls (f : Char → Bool) (lo : Nat) (hi : Option Nat)
  | lit (cs : List Char) (ci : Bool)
  | seq (a b : RE)
  | alt (a b : RE)
  | opt (a : RE)
  | wb

/-- Word character for `\b` (`\w` at ASCII level). -/
def isWordC (c : Char) : Bool := c.isAlphanum || c == '_'

/-- Word-ness of an optional character (string edge counts as non-word). -/
def isWordO : Option Char → Bool
  | none => false
  | some c => isWordC c

/-- Word-ness of the first character of a list (empty = non-word). -/
def headWO (s : List Char) : Bool :=
  match s with
  | [] => false
  | c :: _ => isWordC c

/-- Length of the maximal prefix inside a class. -/
def runLen (f : Char → Bool) : List Char → Nat
  | [] => 0
  | c :: cs => if f c then runLen f cs + 1 else 0

/-- The previous-character context after consuming `cnt` characters of `s`
(the incoming context if nothing was consumed). -/
def prevAfter (prev : Option Char) (s : List Char) (cnt : Nat) : Option Char :=
  match (s.take cnt).getLast? with
  | some c => some c
  | none => prev

/-- Last-character context after consuming the list `c`. -/
def lastO (prev : Option Char) (c : List Char) : Option Char :=
  match c.getLast? with
  | some x => some x
  | none => prev

/-- Greedy class repetition: try consuming `cnt` characters (largest
first), backtracking through the continuation. -/
def clsTry (k : Option Char → List Char → Option (List Char))
    (prev : Option Char) (s : List Char) (lo : Nat) : Nat → Option (List Char)
  | 0 => if lo = 0 then k (prevAfter prev s 0) (s.drop 0) else none
  | cnt + 1 =>
    (if lo ≤ cnt + 1 then k (prevAfter prev s (cnt + 1)) (s.drop (cnt + 1)) else none)
      <|> clsTry k prev s lo cnt

/-- Case-insensitive-capable character comparison (`re.IGNORECASE`). -/
def charEqCI (ci : Bool) (a b : Char) : Bool :=
  if ci then a.toLower == b.toLower else a == b

/-- Strip a literal (with case-folding flag) from the front. -/
def stripLit (ci : Bool) : List Char → List Char → Option (List Char)
  | [], s => some s
  | _ :: _, [] => none
  | c :: cs, d :: ds => if charEqCI ci c d then stripLit ci cs ds else none

/-- Backtracking matcher with continuation, following the Python engine's
preference order.  `M re prev s k`: try to match `re` at the start of `s`
with previous-character context `prev`; on each way of matching, call
`k newPrev rest`; return the first success. -/
def M : RE → Option Char → List Char →
    (Option Char → List Char → Option (List Char)) → Option (List Char)
  | .cls f lo hi, prev, s, k =>
    clsTry k prev s lo (min (runLen f s) (hi.getD (runLen f s)))
  | .lit cs ci, prev, s, k =>
    match stripLit ci cs s with
    | some rest => k (prevAfter prev s cs.length) rest
    | none => none
  | .seq a b, prev, s, k => M a prev s (fun p r => M b p r k)
  | .alt a b, prev, s, k => (M a prev s k) <|> (M b prev s k)
  | .opt a, prev, s, k => (M a prev s k) <|> k prev s
  | .wb, prev, s, k =>
    if isWordO prev ≠ headWO s then k prev s else none

/-- `pattern.match` at one position: the remainder after the chosen
(preference-first) match, or `none`. -/
def matchAt (re : RE) (prev : Option Char) (s : List Char) : Option (List Char) :=
  M re prev s (fun _ r => some r)

/-- `re.sub` scan with structural fuel: at each position try `matchAt`;
on a (non-empty) match emit the replacement and resume after the match,
otherwise copy one character.  Matching context is always the original
string's previous character. -/
def subGo (re : RE) (repl : List Char) : Nat → Option Char → List Char → List Char
  | 0, _, s => s
  | fuel + 1, prev, s =>
    match matchAt re prev s with
    | some r =>
      if r.length < s.length then
        repl ++ subGo re repl fuel (prevAfter prev s (s.length - r.length)) r
      else
        match s with
        | [] => []
        | c :: cs => c :: subGo re repl fuel (some c) cs
    | none =>
      match s with
      | [] => []
      | c :: cs => c :: subGo re repl fuel (some c) cs

/-- `re.sub(pattern, repl, s)`. -/
def reSub (re : RE) (repl : List Char) (s : List Char) : List Char :=
  subGo re repl (s.length + 1) none s

/-- `[A-Za-z0-9._%+-]`. -/
def localCls (c : Char) : Bool :=
  c.isAlphanum || c == '.' || c == '_' || c == '%' || c == '+' || c == '-'

/-- `[A-Za-z0-9.-]`. -/
def domainCls (c : Char) : Bool := c.isAlphanum || c == '.' || c == '-'

/-- `[A-Za-z]`. -/
def alphaCls (c : Char) : Bool := c.isAlpha

/-- `[ -]` (space or dash). -/
def sepCls (c : Char) : Bool := c == ' ' || c == '-'

/-- `\d` (ASCII). -/
def digitCls (c : Char) : Bool := c.isDigit

/-- `[A-Za-z0-9]`. -/
def alnumCls (c : Char) : Bool := c.isAlphanum

/-- `[0-9A-Za-z_-]`. -/
def aizaCls (c : Char) : Bool := c.isAlphanum || c == '_' || c == '-'

/-- `EMAIL` of `scrub.py`. -/
def EMAIL_RE : RE :=
  .seq (.cls localCls 1 none)
    (.seq (.lit ['@'] false)
      (.seq (.cls domainCls 1 none)
        (.seq (.lit ['.'] false) (.cls alphaCls 2 none))))

/-- `PHONE` of `scrub.py`. -/
def PHONE_RE : RE :=
  .seq
    (.opt (.seq
      (.opt (.seq (.opt (.lit ['+'] false)) (.seq (.lit ['1'] false) (.cls sepCls 0 (some 1)))))
      (.seq
        (.alt (.seq (.lit ['('] false) (.seq (.cls digitCls 3 (some 3)) (.lit [')'] false)))
          (.cls digitCls 3 (some 3)))
        (.cls sepCls 0 (some 1)))))
    (.seq (.cls digitCls 3 (some 3))
      (.seq (.cls sepCls 0 (some 1)) (.cls digitCls 4 (some 4))))

/-- `KEYLIKE` of `scrub.py` (`(?i)` is the `ci` flag on the literals; the
bracket classes already contain both cases). -/
def KEY_RE : RE :=
  .seq .wb
    (.seq
      (.alt (.seq (.lit ['s', 'k', '-'] true) (.cls alnumCls 10 none))
        (.alt (.seq (.lit ['g', 'h', 'p', '_'] true) (.cls alnumCls 20 none))
          (.seq (.lit ['A', 'I', 'z', 'a'] true) (.cls aizaCls 20 none))))
      .wb)

/-- The fixed redaction marker. -/
def REDACT : List Char := "[REDACTED]".data

/-- `pii_scrub`: EMAIL, then PHONE, then KEYLIKE substitution. -/
def pii_scrub (s : String) : String :=
  ⟨reSub KEY_RE REDACT (reSub PHONE_RE REDACT (reSub EMAIL_RE REDACT s.data))⟩

/-! ### Declarative match semantics

`Mat re w c nw w'` says: starting with previous-character word-ness `w`,
the pattern `re` can consume exactly the characters `c`, where `nw` is the
word-ness of the character that follows `c` (`false` at the end of the
string) and `w'` is the word-ness context after `c`.  Only `\b` inspects
`w`/`nw`, so the relation mentions nothing of the string beyond the
consumed characters and the one-character lookahead word-ness — this is
what makes matches transportable between strings sharing a segment. -/

/-- Word-ness context after consuming `cs`, starting from `w`. -/
def endW (w : Bool) (cs : List Char) : Bool :=
  match cs.getLast? with
  | some c => isWordC c
  | none => w

/-- Word-ness of the first character of `c2`, falling back to `nw`. -/
def nextW (c2 : List Char) (nw : Bool) : Bool :=
  match c2 with
  | [] => nw
  | c :: _ => isWordC c

/-- `cs` matches the literal `cs'` (with case-folding flag). -/
def litOK (ci : Bool) : List Char → List Char → Bool
  | [], [] => true
  | c :: cs, d :: ds => charEqCI ci c d && litOK ci cs ds
  | _, _ => false

inductive Mat : RE → Bool → List Char → Bool → Bool → Prop
  | cls {f : Char → Bool} {lo : Nat} {hi : Option Nat} {w nw : Bool} (cs : List Char)
      (hf : ∀ c ∈ cs, f c = true) (hlo : lo ≤ cs.length)
      (hhi : cs.length ≤ hi.getD cs.length) :
      Mat (.cls f lo hi) w cs nw (endW w cs)
  | lit {cs' : List Char} {ci : Bool} {w nw : Bool} (cs : List Char)
      (h : litOK ci cs' cs = true) :
      Mat (.lit cs' ci) w cs nw (endW w cs)
  | seq {a b : RE} {w w1 w2 nw : Bool} {c1 c2 : List Char} :
      Mat a w c1 (nextW c2 nw) w1 → Mat b w1 c2 nw w2 →
      Mat (.seq a b) w (c1 ++ c2) nw w2
  | altL {a b : RE} {w nw w' : Bool} {cs : List Char} :
      Mat a w cs nw w' → Mat (.alt a b) w cs nw w'
  | altR {a b : RE} {w nw w' : Bool} {cs : List Char} :
      Mat b w cs nw w' → Mat (.alt a b) w cs nw w'
  | optS {a : RE} {w nw w' : Bool} {cs : List Char} :
      Mat a w cs nw w' → Mat (.opt a) w cs nw w'
  | optN {a : RE} {w nw : Bool} : Mat (.opt a) w [] nw w
  | wb {w nw : Bool} : w ≠ nw → Mat .wb w [] nw w

theorem endW_append (w : Bool) (c1 c2 : List Char) :
    endW w (c1 ++ c2) = endW (endW w c1) c2 := by
  cases h2 : c2 with
  | nil => simp [endW]
  | cons x xs =>
    unfold endW
    rw [List.getLast?_append_of_ne_nil _ (by simp)]
    cases hl : (x :: xs).getLast? with
    | none => exact absurd hl (by simp)
    | some y => rfl

theorem Mat_endW {re : RE} {w nw w' : Bool} {c : List Char}
    (h : Mat re w c nw w') : w' = endW w c := by
  induction h with
  | cls cs hf hlo hhi => rfl
  | lit cs hl => rfl
  | seq ha hb iha ihb => rw [ihb, endW_append, ← iha]
  | altL ha ih => exact ih
  | altR hb ih => exact ih
  | optS ha ih => exact ih
  | optN => simp [endW]
  | wb hne => simp [endW]

theorem isWordO_lastO (prev : Option Char) (c : List Char) :
    isWordO (lastO prev c) = endW (isWordO prev) c := by
  unfold lastO endW
  cases c.getLast? <;> simp [isWordO]

theorem lastO_nil (prev : Option Char) : lastO prev [] = prev := rfl

theorem lastO_append (prev : Option Char) (c1 c2 : List Char) :
    lastO prev (c1 ++ c2) = lastO (lastO prev c1) c2 := by
  unfold lastO
  cases h2 : c2 with
  | nil => simp
  | cons x xs =>
    rw [List.getLast?_append_of_ne_nil _ (by simp)]
    cases hl : (x :: xs).getLast? with
    | none => exact absurd hl (by simp)
    | some y => rfl

theorem lastO_cons (prev : Option Char) (x : Char) (xs : List Char) :
    lastO prev (x :: xs) = lastO (some x) xs := by
  have : x :: xs = [x] ++ xs := rfl
  rw [this, lastO_append]
  rfl

theorem prevAfter_eq_lastO (prev : Option Char) (s : List Char) (cnt : Nat) :
    prevAfter prev s cnt = lastO prev (s.take cnt) := rfl

theorem headWO_append (c2 r : List Char) :
    headWO (c2 ++ r) = nextW c2 (headWO r) := by
  cases c2 <;> rfl

theorem runLen_le_length (f : Char → Bool) : ∀ s : List Char, runLen f s ≤ s.length := by
  intro s
  induction s with
  | nil => simp [runLen]
  | cons c cs ih =>
    unfold runLen
    by_cases h : f c
    · simp [h]; omega
    · simp [h]

theorem runLen_append_ge (f : Char → Bool) (c r : List Char)
    (hf : ∀ ch ∈ c, f ch = true) : c.length ≤ runLen f (c ++ r) := by
  induction c with
  | nil => simp
  | cons x xs ih =>
    have hx : f x = true := hf x (by simp)
    show xs.length + 1 ≤ runLen f (x :: (xs ++ r))
    unfold runLen
    rw [if_pos hx]
    have := ih (fun ch hch => hf ch (by simp [hch]))
    omega

theorem runLen_take_all (f : Char → Bool) :
    ∀ (s : List Char) (cnt : Nat), cnt ≤ runLen f s →
      ∀ c ∈ s.take cnt, f c = true := by
  intro s
  induction s with
  | nil => intro cnt _ c hc; simp at hc
  | cons x xs ih =>
    intro cnt hcnt c hc
    unfold runLen at hcnt
    by_cases hx : f x
    · rw [if_pos hx] at hcnt
      cases cnt with
      | zero => simp at hc
      | succ n =>
        rw [List.take_succ_cons] at hc
        rcases List.mem_cons.mp hc with rfl | hc'
        · exact hx
        · exact ih n (by omega) c hc'
    · rw [if_neg hx] at hcnt
      have : cnt = 0 := by omega
      subst this
      simp at hc

theorem litOK_length {ci : Bool} :
    ∀ {cs' cs : List Char}, litOK ci cs' cs = true → cs.length = cs'.length := by
  intro cs'
  induction cs' with
  | nil => intro cs h; cases cs <;> simp_all [litOK]
  | cons c cs'' ih =>
    intro cs h
    cases cs with
    | nil => simp [litOK] at h
    | cons d ds =>
      simp only [litOK, Bool.and_eq_true] at h
      simp [ih h.2]

theorem stripLit_sound {ci : Bool} :
    ∀ {cs' s r : List Char}, stripLit ci cs' s = some r →
      ∃ c, s = c ++ r ∧ litOK ci cs' c = true := by
  intro cs'
  induction cs' with
  | nil =>
    intro s r h
    simp only [stripLit, Option.some.injEq] at h
    exact ⟨[], by simp [h], rfl⟩
  | cons c cs'' ih =>
    intro s r h
    cases s with
    | nil => simp [stripLit] at h
    | cons d ds =>
      simp only [stripLit] at h
      by_cases he : charEqCI ci c d
      · rw [if_pos he] at h
        obtain ⟨cc, hds, hok⟩ := ih h
        exact ⟨d :: cc, by simp [hds], by simp [litOK, he, hok]⟩
      · rw [if_neg he] at h; exact absurd h (by simp)

theorem stripLit_complete {ci : Bool} :
    ∀ {cs' c : List Char} (r : List Char), litOK ci cs' c = true →
      stripLit ci cs' (c ++ r) = some r := by
  intro cs'
  induction cs' with
  | nil => intro c r h; cases c <;> simp_all [litOK, stripLit]
  | cons x cs'' ih =>
    intro c r h
    cases c with
    | nil => simp [litOK] at h
    | cons d ds =>
      simp only [litOK, Bool.and_eq_true] at h
      simpa [stripLit, h.1] using ih r h.2

theorem clsTry_sound {k : Option Char → List Char → Option (List Char)}
    {prev : Option Char} {s : List Char} {lo : Nat} {out : List Char} :
    ∀ {m : Nat}, clsTry k prev s lo m = some out →
      ∃ cnt, lo ≤ cnt ∧ cnt ≤ m ∧ k (prevAfter prev s cnt) (s.drop cnt) = some out := by
  intro m
  induction m with
  | zero =>
    intro h
    unfold clsTry at h
    by_cases hlo : lo = 0
    · rw [if_pos hlo] at h
      exact ⟨0, by omega, le_refl 0, h⟩
    · rw [if_neg hlo] at h; exact absurd h (by simp)
  | succ m ih =>
    intro h
    unfold clsTry at h
    rcases (Option.orElse_eq_some _ _ _).mp h with h1 | ⟨_, h2⟩
    · by_cases hlo : lo ≤ m + 1
      · rw [if_pos hlo] at h1
        exact ⟨m + 1, hlo, le_refl _, h1⟩
      · rw [if_neg hlo] at h1; exact absurd h1 (by simp)
    · obtain ⟨cnt, h3, h4, h5⟩ := ih h2
      exact ⟨cnt, h3, by omega, h5⟩

theorem M_sound :
    ∀ (re : RE) (prev : Option Char) (s : List Char)
      (k : Option Char → List Char → Option (List Char)) (out : List Char),
      M re prev s k = some out →
      ∃ c r, s = c ++ r ∧
        Mat re (isWordO prev) c (headWO r) (isWordO (lastO prev c)) ∧
        k (lastO prev c) r = some out := by
  intro re
  induction re with
  | cls f lo hi =>
    intro prev s k out h
    obtain ⟨cnt, hlo, hm, hk⟩ := clsTry_sound h
    have hrun : cnt ≤ runLen f s := le_trans hm (min_le_left _ _)
    have hlen : cnt ≤ s.length := le_trans hrun (runLen_le_length f s)
    refine ⟨s.take cnt, s.drop cnt, (List.take_append_drop cnt s).symm, ?_, ?_⟩
    · have hf := runLen_take_all f s cnt hrun
      have hcl : (s.take cnt).length = cnt := by
        rw [List.length_take]; omega
      have hhi : (s.take cnt).length ≤ hi.getD (s.take cnt).length := by
        cases hi with
        | none => simp
        | some hbound =>
          simp only [Option.getD]
          rw [hcl]
          have := le_trans hm (min_le_right _ _)
          simpa using this
      have := @Mat.cls f lo hi (isWordO prev) (headWO (s.drop cnt)) (s.take cnt) hf
        (by rw [hcl]; exact hlo) hhi
      rwa [← isWordO_lastO] at this
    · rwa [prevAfter_eq_lastO] at hk
  | lit cs' ci =>
    intro prev s k out h
    unfold M at h
    cases hstrip : stripLit ci cs' s with
    | none => rw [hstrip] at h; exact absurd h (by simp)
    | some rest =>
      rw [hstrip] at h
      obtain ⟨c, hs, hok⟩ := stripLit_sound hstrip
      refine ⟨c, rest, hs, ?_, ?_⟩
      · have := @Mat.lit cs' ci (isWordO prev) (headWO rest) c hok
        rwa [← isWordO_lastO] at this
      · have hlen : cs'.length = c.length := (litOK_length hok).symm
        rw [prevAfter_eq_lastO, hlen, hs, List.take_left] at h
        exact h
  | seq a b iha ihb =>
    intro prev s k out h
    unfold M at h
    obtain ⟨c1, r1, hs1, hm1, hk1⟩ := iha prev s _ out h
    obtain ⟨c2, r, hs2, hm2, hk2⟩ := ihb (lastO prev c1) r1 k out hk1
    refine ⟨c1 ++ c2, r, by rw [hs1, hs2, List.append_assoc], ?_, ?_⟩
    · rw [isWordO_lastO, endW_append, ← isWordO_lastO, ← isWordO_lastO,
        ← lastO_append]
      rw [lastO_append]
      refine Mat.seq ?_ hm2
      rw [hs2, headWO_append] at hm1
      exact hm1
    · rwa [lastO_append]
  | alt a b iha ihb =>
    intro prev s k out h
    unfold M at h
    rcases (Option.orElse_eq_some _ _ _).mp h with h1 | ⟨_, h2⟩
    · obtain ⟨c, r, hs, hm, hk⟩ := iha prev s k out h1
      exact ⟨c, r, hs, Mat.altL hm, hk⟩
    · obtain ⟨c, r, hs, hm, hk⟩ := ihb prev s k out h2
      exact ⟨c, r, hs, Mat.altR hm, hk⟩
  | opt a iha =>
    intro prev s k out h
    unfold M at h
    rcases (Option.orElse_eq_some _ _ _).mp h with h1 | ⟨_, h2⟩
    · obtain ⟨c, r, hs, hm, hk⟩ := iha prev s k out h1
      exact ⟨c, r, hs, Mat.optS hm, hk⟩
    · exact ⟨[], s, rfl, Mat.optN, h2⟩
  | wb =>
    intro prev s k out h
    unfold M at h
    by_cases hb : isWordO prev ≠ headWO s
    · rw [if_pos hb] at h
      exact ⟨[], s, rfl, Mat.wb hb, h⟩
    · rw [if_neg hb] at h; exact absurd h (by simp)

theorem clsTry_none {k : Option Char → List Char → Option (List Char)}
    {prev : Option Char} {s : List Char} {lo : Nat} :
    ∀ {m : Nat}, clsTry k prev s lo m = none →
      ∀ cnt, lo ≤ cnt → cnt ≤ m → k (prevAfter prev s cnt) (s.drop cnt) = none := by
  intro m
  induction m with
  | zero =>
    intro h cnt h1 h2
    have : cnt = 0 := by omega
    subst this
    unfold clsTry at h
    rw [if_pos (by omega)] at h
    exact h
  | succ m ih =>
    intro h cnt h1 h2
    unfold clsTry at h
    rcases (Option.orElse_eq_none _ _).mp h with ⟨ha, hb⟩
    rcases Nat.lt_or_ge cnt (m + 1) with hlt | hge
    · exact ih hb cnt h1 (by omega)
    · have : cnt = m + 1 := by omega
      subst this
      rw [if_pos h1] at ha
      exact ha

theorem M_complete :
    ∀ (re : RE) (prev : Option Char) (s : List Char)
      (k : Option Char → List Char → Option (List Char)),
      M re prev s k = none →
      ∀ (c r : List Char) (w' : Bool), s = c ++ r →
        Mat re (isWordO prev) c (headWO r) w' →
        k (lastO prev c) r = none := by
  intro re
  induction re with
  | cls f lo hi =>
    intro prev s k h c r w' hs hm
    cases hm with
    | cls _ hf hlo hhi =>
      subst hs
      have hrun : c.length ≤ runLen f (c ++ r) := runLen_append_ge f c r hf
      have hm' : c.length ≤ min (runLen f (c ++ r)) (hi.getD (runLen f (c ++ r))) := by
        cases hi with
        | none => simp only [Option.getD]; omega
        | some hb =>
          simp only [Option.getD] at hhi ⊢
          omega
      have := clsTry_none h c.length hlo hm'
      rwa [prevAfter_eq_lastO, List.take_left, List.drop_left] at this
  | lit cs' ci =>
    intro prev s k h c r w' hs hm
    cases hm with
    | lit _ hok =>
      subst hs
      have h2 : k (prevAfter prev (c ++ r) cs'.length) r = none := by
        unfold M at h
        rw [stripLit_complete r hok] at h
        exact h
      rwa [prevAfter_eq_lastO, ← litOK_length hok, List.take_left] at h2
  | seq a b iha ihb =>
    intro prev s k h c r w' hs hm
    cases hm with
    | seq hm1 hm2 =>
      rename_i w1 c1 c2
      unfold M at h
      rw [← headWO_append] at hm1
      have h1 := iha prev s _ h c1 (c2 ++ r)
        w1 (by rw [hs, List.append_assoc]) hm1
      have hw1 : w1 = isWordO (lastO prev c1) := by
        rw [Mat_endW hm1, isWordO_lastO]
      rw [hw1] at hm2
      have h2 := ihb (lastO prev c1) (c2 ++ r) k h1 c2 r w' rfl hm2
      rwa [← lastO_append] at h2
  | alt a b iha ihb =>
    intro prev s k h c r w' hs hm
    unfold M at h
    rcases (Option.orElse_eq_none _ _).mp h with ⟨ha, hb⟩
    cases hm with
    | altL hm1 => exact iha prev s k ha c r w' hs hm1
    | altR hm1 => exact ihb prev s k hb c r w' hs hm1
  | opt a iha =>
    intro prev s k h c r w' hs hm
    unfold M at h
    rcases (Option.orElse_eq_none _ _).mp h with ⟨ha, hb⟩
    cases hm with
    | optS hm1 => exact iha prev s k ha c r w' hs hm1
    | optN => subst hs; simpa [lastO_nil] using hb
  | wb =>
    intro prev s k h c r w' hs hm
    cases hm with
    | wb hne =>
      have hr : s = r := by simpa using hs
      subst hr
      unfold M at h
      rw [if_pos hne] at h
      simpa [lastO_nil] using h

theorem matchAt_sound {re : RE} {prev : Option Char} {s r : List Char}
    (h : matchAt re prev s = some r) :
    ∃ c, s = c ++ r ∧
      Mat re (isWordO prev) c (headWO r) (isWordO (lastO prev c)) := by
  obtain ⟨c, r', hs, hm, hk⟩ := M_sound re prev s _ r h
  have : r' = r := by simpa using hk
  subst this
  exact ⟨c, hs, hm⟩

theorem matchAt_complete {re : RE} {prev : Option Char} {c r : List Char}
    {w' : Bool} (h : matchAt re prev (c ++ r) = none)
    (hm : Mat re (isWordO prev) c (headWO r) w') : False := by
  have := M_complete re prev (c ++ r) _ h c r w' rfl hm
  simp at this

/-- `Char.toLower` moves nothing outside `A`–`Z`; in particular a
non-word character is its own lower-case form. -/
theorem toLower_nonword {d : Char} (hd : isWordC d = false) : d.toLower = d := by
  unfold Char.toLower
  rw [if_neg]
  intro hc
  have hup : d.isUpper = true := by
    unfold Char.isUpper
    rw [Bool.and_eq_true, decide_eq_true_iff, decide_eq_true_iff]
    constructor
    · show (65 : UInt32) ≤ d.val
      rw [UInt32.le_def, BitVec.le_def]
      simpa using hc.1
    · show d.val ≤ (90 : UInt32)
      rw [UInt32.le_def, BitVec.le_def]
      simpa using hc.2
  have : isWordC d = true := by
    unfold isWordC Char.isAlphanum Char.isAlpha
    simp [hup]
  rw [this] at hd
  exact absurd hd (by simp)

/-- If `d` matches the (word) character `a` case-insensitively, `d` is a
word character. -/
theorem isWordC_of_charEqCI {a d : Char} (ha : isWordC a.toLower = true)
    (h : charEqCI true a d = true) : isWordC d = true := by
  by_cases hw : isWordC d
  · exact hw
  · exfalso
    unfold charEqCI at h
    rw [if_pos rfl, beq_iff_eq] at h
    rw [@toLower_nonword d (by simpa using hw)] at h
    exact hw (h ▸ ha)

/-- Character discipline for a pattern: every class and every
case-folded literal character satisfies `g`. -/
def clsSub (g : Char → Bool) : RE → Prop
  | .cls f _ _ => ∀ ch, f ch = true → g ch = true
  | .lit L ci => ∀ ch ∈ L, ∀ d, charEqCI ci ch d = true → g d = true
  | .seq a b => clsSub g a ∧ clsSub g b
  | .alt a b => clsSub g a ∧ clsSub g b
  | .opt a => clsSub g a
  | .wb => True

theorem litOK_mem_chars {ci : Bool} :
    ∀ {L c : List Char}, litOK ci L c = true →
      ∀ d ∈ c, ∃ ch ∈ L, charEqCI ci ch d = true := by
  intro L
  induction L with
  | nil => intro c h d hd; cases c <;> simp_all [litOK]
  | cons x xs ih =>
    intro c h d hd
    cases c with
    | nil => simp at hd
    | cons e es =>
      simp only [litOK, Bool.and_eq_true] at h
      rcases List.mem_cons.mp hd with rfl | hd'
      · exact ⟨x, by simp, h.1⟩
      · obtain ⟨ch, hch, he⟩ := ih h.2 d hd'
        exact ⟨ch, by simp [hch], he⟩

theorem Mat_chars {g : Char → Bool} :
    ∀ {re : RE} {w nw w' : Bool} {c : List Char},
      clsSub g re → Mat re w c nw w' → ∀ ch ∈ c, g ch = true := by
  intro re w nw w' c hsub hm
  induction hm with
  | cls cs hf _ _ => exact fun ch hch => hsub ch (hf ch hch)
  | lit cs hok =>
    intro ch hch
    obtain ⟨x, hx, he⟩ := litOK_mem_chars hok ch hch
    exact hsub x hx ch he
  | seq h1 h2 ih1 ih2 =>
    intro ch hch
    rcases List.mem_append.mp hch with h | h
    · exact ih1 hsub.1 ch h
    · exact ih2 hsub.2 ch h
  | altL h1 ih => exact ih hsub.1
  | altR h1 ih => exact ih hsub.2
  | optS h1 ih => exact ih hsub
  | optN => intro ch hch; simp at hch
  | wb hne => intro ch hch; simp at hch

/-- Character set of `EMAIL` matches. -/
def emailChars (c : Char) : Bool := localCls c || c == '@'

/-- Character set of `PHONE` matches. -/
def phoneChars (c : Char) : Bool :=
  digitCls c || sepCls c || c == '(' || c == ')' || c == '+'

/-- Character set of `KEYLIKE` matches. -/
def keyChars (c : Char) : Bool :=
  aizaCls c || c.toLower == 's' || c.toLower == 'k' || c.toLower == 'g'
    || c.toLower == 'h' || c.toLower == 'p' || c.toLower == 'a'
    || c.toLower == 'i' || c.toLower == 'z'

theorem emailChars_sub : clsSub emailChars EMAIL_RE := by
  simp only [EMAIL_RE, clsSub]
  repeat' apply And.intro
  all_goals first
    | (intro ch h
       simp only [emailChars, localCls, domainCls, alphaCls, Char.isAlphanum,
         Char.isAlpha, Bool.or_eq_true, beq_iff_eq] at h ⊢
       tauto)
    | (intro ch hch d h
       simp only [List.mem_singleton] at hch
       subst hch
       unfold charEqCI at h
       rw [if_neg (by simp), beq_iff_eq] at h
       subst h
       decide)

theorem phoneChars_sub : clsSub phoneChars PHONE_RE := by
  simp only [PHONE_RE, clsSub]
  repeat' apply And.intro
  all_goals first
    | (intro ch h
       simp only [phoneChars, digitCls, sepCls, Bool.or_eq_true, beq_iff_eq] at h ⊢
       tauto)
    | (intro ch hch d h
       simp only [List.mem_singleton] at hch
       subst hch
       unfold charEqCI at h
       rw [if_neg (by simp), beq_iff_eq] at h
       subst h
       decide)

theorem Mat_seq_inv {a b : RE} {w nw w2 : Bool} {c : List Char}
    (h : Mat (.seq a b) w c nw w2) :
    ∃ c1 c2 w1, c = c1 ++ c2 ∧ Mat a w c1 (nextW c2 nw) w1 ∧ Mat b w1 c2 nw w2 := by
  cases h with
  | seq h1 h2 => exact ⟨_, _, _, rfl, h1, h2⟩

theorem Mat_wb_inv {w nw w' : Bool} {c : List Char} (h : Mat .wb w c nw w') :
    c = [] ∧ w ≠ nw ∧ w' = w := by
  cases h with
  | wb hb => exact ⟨rfl, hb, rfl⟩

theorem Mat_alt_inv {a b : RE} {w nw w' : Bool} {c : List Char}
    (h : Mat (.alt a b) w c nw w') : Mat a w c nw w' ∨ Mat b w c nw w' := by
  cases h with
  | altL h1 => exact Or.inl h1
  | altR h1 => exact Or.inr h1

theorem Mat_opt_inv {a : RE} {w nw w' : Bool} {c : List Char}
    (h : Mat (.opt a) w c nw w') : Mat a w c nw w' ∨ (c = [] ∧ w' = w) := by
  cases h with
  | optS h1 => exact Or.inl h1
  | optN => exact Or.inr ⟨rfl, rfl⟩

theorem Mat_cls_inv {f : Char → Bool} {lo : Nat} {hi : Option Nat}
    {w nw w' : Bool} {c : List Char} (h : Mat (.cls f lo hi) w c nw w') :
    (∀ ch ∈ c, f ch = true) ∧ lo ≤ c.length ∧ c.length ≤ hi.getD c.length := by
  cases h with
  | cls cs hf hlo hhi => exact ⟨hf, hlo, hhi⟩

theorem Mat_lit_inv {L : List Char} {ci : Bool} {w nw w' : Bool} {c : List Char}
    (h : Mat (.lit L ci) w c nw w') : litOK ci L c = true := by
  cases h with
  | lit cs hok => exact hok

theorem keyChars_lit {a d : Char} (ha : keyChars a.toLower = true)
    (h : charEqCI true a d = true) : keyChars d = true := by
  by_cases hw : isWordC d
  · simp only [keyChars, aizaCls, isWordC, Bool.or_eq_true, beq_iff_eq] at hw ⊢
    tauto
  · unfold charEqCI at h
    rw [if_pos rfl, beq_iff_eq] at h
    rw [@toLower_nonword d (by simpa using hw)] at h
    rw [← h]
    exact ha

theorem keyChars_sub : clsSub keyChars KEY_RE := by
  simp only [KEY_RE, clsSub]
  refine ⟨trivial, ⟨⟨?_, ?_⟩, ⟨?_, ?_⟩, ⟨?_, ?_⟩⟩, trivial⟩
  · intro ch hch d h
    refine keyChars_lit ?_ h
    simp only [List.mem_cons, List.mem_singleton, List.not_mem_nil, or_false] at hch
    rcases hch with rfl | rfl | rfl <;> decide
  · intro ch h
    simp only [keyChars, aizaCls, alnumCls, Bool.or_eq_true, beq_iff_eq] at h ⊢
    tauto
  · intro ch hch d h
    refine keyChars_lit ?_ h
    simp only [List.mem_cons, List.mem_singleton, List.not_mem_nil, or_false] at hch
    rcases hch with rfl | rfl | rfl | rfl <;> decide
  · intro ch h
    simp only [keyChars, aizaCls, alnumCls, Bool.or_eq_true, beq_iff_eq] at h ⊢
    tauto
  · intro ch hch d h
    refine keyChars_lit ?_ h
    simp only [List.mem_cons, List.mem_singleton, List.not_mem_nil, or_false] at hch
    rcases hch with rfl | rfl | rfl | rfl <;> decide
  · intro ch h
    simp only [keyChars, aizaCls, Bool.or_eq_true, beq_iff_eq] at h ⊢
    tauto

theorem litOK_cons {ci : Bool} {x : Char} {xs c : List Char}
    (h : litOK ci (x :: xs) c = true) :
    ∃ d ds, c = d :: ds ∧ charEqCI ci x d = true ∧ litOK ci xs ds = true := by
  cases c with
  | nil => simp [litOK] at h
  | cons d ds =>
    simp only [litOK, Bool.and_eq_true] at h
    exact ⟨d, ds, rfl, h.1, h.2⟩

theorem litOK_singleton {ci : Bool} {x : Char} {c : List Char}
    (h : litOK ci [x] c = true) : ∃ d, c = [d] ∧ charEqCI ci x d = true := by
  obtain ⟨d, ds, rfl, he, h2⟩ := litOK_cons h
  cases ds with
  | nil => exact ⟨d, rfl, he⟩
  | cons e es => simp [litOK] at h2

/-- Every `EMAIL` match contains its mandatory `@`. -/
theorem Mat_email_at {w nw w' : Bool} {c : List Char}
    (h : Mat EMAIL_RE w c nw w') : '@' ∈ c := by
  obtain ⟨c1, c2, w1, rfl, h1, h2⟩ := Mat_seq_inv h
  obtain ⟨c3, c4, w2, rfl, h3, h4⟩ := Mat_seq_inv h2
  obtain ⟨d, rfl, he⟩ := litOK_singleton (Mat_lit_inv h3)
  unfold charEqCI at he
  rw [if_neg (by simp), beq_iff_eq] at he
  subst he
  simp

/-- Every `PHONE` match is non-empty (its core demands digits). -/
theorem Mat_phone_ne {w nw w' : Bool} {c : List Char}
    (h : Mat PHONE_RE w c nw w') : c ≠ [] := by
  obtain ⟨c1, c2, w1, rfl, h1, h2⟩ := Mat_seq_inv h
  obtain ⟨c3, c4, w2, rfl, h3, h4⟩ := Mat_seq_inv h2
  obtain ⟨-, hlo, -⟩ := Mat_cls_inv h3
  intro hc
  rcases List.append_eq_nil.mp hc with ⟨-, hc2⟩
  rcases List.append_eq_nil.mp hc2 with ⟨hc3, -⟩
  rw [hc3] at hlo
  simp at hlo

/-- Structure of a `KEYLIKE` match: it is non-empty and starts with a word
character (a literal letter), the preceding context is therefore non-word
(leading `\b`), and the trailing `\b` separates the last consumed
character's word-ness from `nw`. -/
theorem Mat_key_struct {w nw w' : Bool} {c : List Char}
    (h : Mat KEY_RE w c nw w') :
    (∃ d cs, c = d :: cs ∧ isWordC d = true) ∧ w = false ∧ endW w c ≠ nw := by
  obtain ⟨c1, c2, w1, rfl, h1, h2⟩ := Mat_seq_inv h
  obtain ⟨hc1, hb1, hw1⟩ := Mat_wb_inv h1
  subst hc1
  rw [List.nil_append] at *
  obtain ⟨c3, c4, w3, rfl, h3, h4⟩ := Mat_seq_inv h2
  obtain ⟨hc4, hb2, hw4⟩ := Mat_wb_inv h4
  subst hc4
  rw [List.append_nil] at *
  have hw3 : w3 = endW w1 c3 := Mat_endW h3
  subst hw1
  have hhead : ∃ d cs, c3 = d :: cs ∧ isWordC d = true := by
    rcases Mat_alt_inv h3 with h5 | h5
    · obtain ⟨lc, cc, w6, rfl, h6, -⟩ := Mat_seq_inv h5
      obtain ⟨d, ds, rfl, he, -⟩ := litOK_cons (Mat_lit_inv h6)
      exact ⟨d, _, rfl, isWordC_of_charEqCI (by decide) he⟩
    rcases Mat_alt_inv h5 with h6 | h6
    · obtain ⟨lc, cc, w6, rfl, h7, -⟩ := Mat_seq_inv h6
      obtain ⟨d, ds, rfl, he, -⟩ := litOK_cons (Mat_lit_inv h7)
      exact ⟨d, _, rfl, isWordC_of_charEqCI (by decide) he⟩
    · obtain ⟨lc, cc, w6, rfl, h7, -⟩ := Mat_seq_inv h6
      obtain ⟨d, ds, rfl, he, -⟩ := litOK_cons (Mat_lit_inv h7)
      exact ⟨d, _, rfl, isWordC_of_charEqCI (by decide) he⟩
  obtain ⟨d, cs, hc3, hword⟩ := hhead
  refine ⟨⟨d, cs, hc3, hword⟩, ?_, ?_⟩
  · subst hc3
    rw [show nextW (d :: cs) nw = isWordC d from rfl, hword] at hb1
    simpa using hb1
  · rw [← hw3]
    exact hb2

/-- A case-insensitive literal character pins down the lower-case form. -/
theorem charEqCI_toLower {a d : Char} (h : charEqCI true a d = true) :
    d.toLower = a.toLower := by
  unfold charEqCI at h
  rw [if_pos rfl, beq_iff_eq] at h
  exact h.symm

/-- No `KEYLIKE` match can consist solely of characters of the marker core
`REDACTED` (no `s`/`g` at all, and no `i` to follow an `A`). -/
theorem Mat_key_core {w nw w' : Bool} {c : List Char} (h : Mat KEY_RE w c nw w')
    (hsub : ∀ ch ∈ c, ch ∈ ("REDACTED" : String).data) : False := by
  obtain ⟨c1, c2, w1, rfl, h1, h2⟩ := Mat_seq_inv h
  obtain ⟨hc1, -, -⟩ := Mat_wb_inv h1
  subst hc1
  obtain ⟨c3, c4, w3, rfl, h3, h4⟩ := Mat_seq_inv h2
  obtain ⟨hc4, -, -⟩ := Mat_wb_inv h4
  subst hc4
  have hnos : ∀ x ∈ ("REDACTED" : String).data, ¬ x.toLower = 's' := by decide
  have hnog : ∀ x ∈ ("REDACTED" : String).data, ¬ x.toLower = 'g' := by decide
  have hnoi : ∀ x ∈ ("REDACTED" : String).data, ¬ x.toLower = 'i' := by decide
  rcases Mat_alt_inv h3 with h5 | h5
  · obtain ⟨lc, cc, w6, rfl, h6, -⟩ := Mat_seq_inv h5
    obtain ⟨d, ds, rfl, he, -⟩ := litOK_cons (Mat_lit_inv h6)
    have hd : d.toLower = 's' := by rw [charEqCI_toLower he]; decide
    exact hnos d (hsub d (by simp)) hd
  rcases Mat_alt_inv h5 with h6 | h6
  · obtain ⟨lc, cc, w6, rfl, h7, -⟩ := Mat_seq_inv h6
    obtain ⟨d, ds, rfl, he, -⟩ := litOK_cons (Mat_lit_inv h7)
    have hd : d.toLower = 'g' := by rw [charEqCI_toLower he]; decide
    exact hnog d (hsub d (by simp)) hd
  · obtain ⟨lc, cc, w6, rfl, h7, -⟩ := Mat_seq_inv h6
    obtain ⟨d, ds, rfl, -, hok⟩ := litOK_cons (Mat_lit_inv h7)
    obtain ⟨e, es, rfl, he, -⟩ := litOK_cons hok
    have hd : e.toLower = 'i' := by rw [charEqCI_toLower he]; decide
    exact hnoi e (hsub e (by simp)) hd

theorem Mat_email_no_brack {w nw w' : Bool} {c : List Char}
    (h : Mat EMAIL_RE w c nw w') : '[' ∉ c ∧ ']' ∉ c := by
  have hch := Mat_chars emailChars_sub h
  exact ⟨fun hm => absurd (hch _ hm) (by decide),
    fun hm => absurd (hch _ hm) (by decide)⟩

theorem Mat_phone_no_brack {w nw w' : Bool} {c : List Char}
    (h : Mat PHONE_RE w c nw w') : '[' ∉ c ∧ ']' ∉ c := by
  have hch := Mat_chars phoneChars_sub h
  exact ⟨fun hm => absurd (hch _ hm) (by decide),
    fun hm => absurd (hch _ hm) (by decide)⟩

theorem Mat_key_no_brack {w nw w' : Bool} {c : List Char}
    (h : Mat KEY_RE w c nw w') : '[' ∉ c ∧ ']' ∉ c := by
  have hch := Mat_chars keyChars_sub h
  exact ⟨fun hm => absurd (hch _ hm) (by decide),
    fun hm => absurd (hch _ hm) (by decide)⟩

/-- Patterns without `\b`. -/
def wbFree : RE → Bool
  | .cls _ _ _ => true
  | .lit _ _ => true
  | .seq a b => wbFree a && wbFree b
  | .alt a b => wbFree a && wbFree b
  | .opt a => wbFree a
  | .wb => false

/-- A `\b`-free pattern's matches do not depend on the word-ness context on
either side. -/
theorem Mat_ctxfree {re : RE} (hf : wbFree re = true) :
    ∀ {w nw w' : Bool} {c : List Char}, Mat re w c nw w' →
      ∀ (w2 nw2 : Bool), Mat re w2 c nw2 (endW w2 c) := by
  intro w nw w' c h
  induction h with
  | cls cs hfc hlo hhi => intro w2 nw2; exact Mat.cls cs hfc hlo hhi
  | lit cs hok => intro w2 nw2; exact Mat.lit cs hok
  | seq h1 h2 ih1 ih2 =>
    intro w2 nw2
    rename_i a b wa w1a w2a nwa c1 c2
    simp only [wbFree, Bool.and_eq_true] at hf
    have m1 := ih1 hf.1 w2 (nextW c2 nw2)
    have m2 := ih2 hf.2 (endW w2 c1) nw2
    have := Mat.seq m1 m2
    rwa [← endW_append] at this
  | altL h1 ih =>
    intro w2 nw2
    simp only [wbFree, Bool.and_eq_true] at hf
    exact Mat.altL (ih hf.1 w2 nw2)
  | altR h1 ih =>
    intro w2 nw2
    simp only [wbFree, Bool.and_eq_true] at hf
    exact Mat.altR (ih hf.2 w2 nw2)
  | optS h1 ih =>
    intro w2 nw2
    simp only [wbFree] at hf
    exact Mat.optS (ih hf w2 nw2)
  | optN =>
    intro w2 nw2
    have : endW w2 ([] : List Char) = w2 := rfl
    rw [show (endW w2 ([] : List Char)) = w2 from rfl]
    exact Mat.optN
  | wb hb => simp [wbFree] at hf

theorem wbFree_email : wbFree EMAIL_RE = true := rfl

theorem wbFree_phone : wbFree PHONE_RE = true := rfl

/-- Non-nullability transfers to the matcher: matches strictly shrink. -/
theorem matchAt_shrink {re : RE}
    (hne : ∀ {w nw w' : Bool} {c : List Char}, Mat re w c nw w' → c ≠ [])
    {prev : Option Char} {s r : List Char}
    (h : matchAt re prev s = some r) : r.length < s.length := by
  obtain ⟨c, rfl, hm⟩ := matchAt_sound h
  have := hne hm
  have hc : 0 < c.length := List.length_pos.mpr this
  rw [List.length_append]
  omega

/-- The scan structure of `re.sub`: `SubR re repl prev s t` relates an
input suffix `s` (with original-string previous character `prev`) to the
corresponding output `t`; `skip` records a position where the pattern does
not match, `rep` a replaced match. -/
inductive SubR (re : RE) (repl : List Char) : Option Char → List Char → List Char → Prop
  | nil {prev : Option Char} : SubR re repl prev [] []
  | skip {prev : Option Char} {c : Char} {cs t : List Char}
      (hnone : matchAt re prev (c :: cs) = none)
      (hrec : SubR re repl (some c) cs t) :
      SubR re repl prev (c :: cs) (c :: t)
  | rep {prev : Option Char} {s r t : List Char}
      (hm : matchAt re prev s = some r) (hlt : r.length < s.length)
      (hrec : SubR re repl (prevAfter prev s (s.length - r.length)) r t) :
      SubR re repl prev s (repl ++ t)

theorem subGo_eq_match {re : RE} {repl : List Char} {fuel : Nat}
    {prev : Option Char} {s r : List Char}
    (hm : matchAt re prev s = some r) (hlt : r.length < s.length) :
    subGo re repl (fuel + 1) prev s
      = repl ++ subGo re repl fuel (prevAfter prev s (s.length - r.length)) r := by
  conv_lhs => unfold subGo
  simp only [hm, if_pos hlt]

theorem subGo_eq_skip {re : RE} {repl : List Char} {fuel : Nat}
    {prev : Option Char} {c : Char} {cs : List Char}
    (hm : matchAt re prev (c :: cs) = none) :
    subGo re repl (fuel + 1) prev (c :: cs)
      = c :: subGo re repl fuel (some c) cs := by
  conv_lhs => unfold subGo
  simp only [hm]

/-- `subGo` realises `SubR` (given non-nullability, the fuel suffices). -/
theorem subGo_SubR {re : RE} {repl : List Char}
    (hne : ∀ {w nw w' : Bool} {c : List Char}, Mat re w c nw w' → c ≠ []) :
    ∀ (fuel : Nat) (prev : Option Char) (s : List Char), s.length ≤ fuel →
      SubR re repl prev s (subGo re repl fuel prev s) := by
  intro fuel
  induction fuel with
  | zero =>
    intro prev s hs
    have : s = [] := List.eq_nil_of_length_eq_zero (by omega)
    subst this
    exact SubR.nil
  | succ fuel ih =>
    intro prev s hs
    cases hm : matchAt re prev s with
    | some r =>
      have hlt : r.length < s.length := matchAt_shrink @hne hm
      rw [subGo_eq_match hm hlt]
      exact SubR.rep hm hlt (ih _ r (by omega))
    | none =>
      cases s with
      | nil =>
        have h0 : subGo re repl (fuel + 1) prev ([] : List Char) = [] := by
          conv_lhs => unfold subGo
          simp only [hm]
        rw [h0]
        exact SubR.nil
      | cons c cs =>
        rw [subGo_eq_skip hm]
        exact SubR.skip hm (ih _ cs (by simpa using hs))

/-- No match at any split position of `s` (with the true left context). -/
def NoMatches (re : RE) (s : List Char) : Prop :=
  ∀ u v : List Char, s = u ++ v → matchAt re u.getLast? v = none

/-- A match-free string is a fixed point of the substitution. -/
theorem subGo_id {re : RE} {repl : List Char} :
    ∀ (fuel : Nat) (u v : List Char),
      (∀ u' v' : List Char, u ++ v = u' ++ v' → matchAt re u'.getLast? v' = none) →
      subGo re repl fuel u.getLast? v = v := by
  intro fuel
  induction fuel with
  | zero => intro u v _; rfl
  | succ fuel ih =>
    intro u v hno
    cases v with
    | nil =>
      unfold subGo
      rw [hno u [] rfl]
    | cons c cs =>
      rw [subGo_eq_skip (hno u (c :: cs) rfl)]
      have hlast : (u ++ [c]).getLast? = some c := by simp
      have := ih (u ++ [c]) cs (fun u' v' he => hno u' v' (by rw [← he]; simp))
      rw [hlast] at this
      rw [this]

theorem reSub_id {re : RE} {repl : List Char} {s : List Char}
    (h : NoMatches re s) : reSub re repl s = s := by
  unfold reSub
  have := @subGo_id re repl (s.length + 1) [] s
    (fun u' v' he => h u' v' (by simpa using he))
  simpa using this

/-- A bracket-free prefix of the substitution output is a prefix of the
input, and the character following it either agrees between input and
output or marks the start of a replaced match in the input. -/
theorem SubR_prefix {re : RE} :
    ∀ (c : List Char), '[' ∉ c →
      ∀ (prev : Option Char) (s t : List Char), SubR re REDACT prev s t →
        ∀ r, t = c ++ r →
          ∃ rs, s = c ++ rs ∧
            ((r = [] ∧ rs = []) ∨
             (∃ ch r' rs', r = ch :: r' ∧ rs = ch :: rs') ∨
             (∃ rr, matchAt re (lastO prev c) rs = some rr)) := by
  intro c
  induction c with
  | nil =>
    intro _ prev s t h r ht
    refine ⟨s, rfl, ?_⟩
    cases h with
    | nil =>
      simp only [List.nil_append] at ht
      exact Or.inl ⟨ht.symm, rfl⟩
    | skip hnone hrec =>
      simp only [List.nil_append] at ht
      exact Or.inr (Or.inl ⟨_, _, _, ht.symm, rfl⟩)
    | rep hm hlt hrec =>
      exact Or.inr (Or.inr ⟨_, hm⟩)
  | cons x c' ih =>
    intro hbr prev s t h r ht
    have hx : x ≠ '[' := fun he => hbr (by simp [he])
    have hbr' : '[' ∉ c' := fun he => hbr (by simp [he])
    cases h with
    | nil => simp at ht
    | skip hnone hrec =>
      rename_i ch cs t'
      rw [List.cons_append] at ht
      rw [List.cons.injEq] at ht
      obtain ⟨hchx, ht'⟩ := ht
      subst hchx
      obtain ⟨rs, hcs, hdisj⟩ := ih hbr' (some ch) cs t' hrec r ht'
      refine ⟨rs, by rw [hcs, List.cons_append], ?_⟩
      rcases hdisj with h1 | h2 | ⟨rr, h3⟩
      · exact Or.inl h1
      · exact Or.inr (Or.inl h2)
      · refine Or.inr (Or.inr ⟨rr, ?_⟩)
        rwa [lastO_cons]
    | rep hm hlt hrec =>
      exfalso
      have hR : REDACT = '[' :: ("REDACTED]" : String).data := rfl
      rw [hR] at ht
      simp only [List.cons_append] at ht
      rw [List.cons.injEq] at ht
      exact hx ht.1.symm

/-- Context-free cleanliness: no match of `R` (under any word-ness
context) sits anywhere inside `S`. -/
def CleanCF (R : RE) (S : List Char) : Prop :=
  ∀ (u c r : List Char) (w0 w' : Bool), S = u ++ c ++ r →
    Mat R w0 c (headWO r) w' → False

theorem CleanCF_cons {R : RE} {ch : Char} {S : List Char}
    (h : CleanCF R (ch :: S)) : CleanCF R S := by
  intro u c r w0 w' hS hm
  exact h (ch :: u) c r w0 w' (by rw [hS]; simp) hm

theorem CleanCF_append_left {R : RE} {a S : List Char}
    (h : CleanCF R (a ++ S)) : CleanCF R S := by
  intro u c r w0 w' hS hm
  exact h (a ++ u) c r w0 w' (by rw [hS]; simp) hm

theorem mem_of_getLast? {α : Type} [DecidableEq α] :
    ∀ {l : List α} {a : α}, l.getLast? = some a → a ∈ l := by
  intro l
  induction l with
  | nil => intro a h; simp at h
  | cons x xs ih =>
    intro a h
    cases xs with
    | nil => simp_all
    | cons y ys =>
      rw [List.getLast?_cons_cons] at h
      exact List.mem_cons_of_mem x (ih h)

theorem redact_mem_core {ch : Char} (h : ch ∈ REDACT)
    (h1 : ch ≠ '[') (h2 : ch ≠ ']') : ch ∈ ("REDACTED" : String).data := by
  have : REDACT = "[REDACTED]".data := rfl
  rw [this] at h
  fin_cases h <;> simp_all

/-- At a replacement node, a bracket-free, non-core match in the output
must lie beyond the emitted marker. -/
theorem marker_case {u c r t2 : List Char}
    (hbrL : '[' ∉ c) (hbrR : ']' ∉ c)
    (hcore : (∀ ch ∈ c, ch ∈ ("REDACTED" : String).data) → False)
    (ht : REDACT ++ t2 = u ++ (c ++ r)) :
    ∃ u', u = REDACT ++ u' ∧ t2 = u' ++ (c ++ r) := by
  rcases List.append_eq_append_iff.mp ht with ⟨u', hu, ht2⟩ | ⟨m', hRm, hcr⟩
  · exact ⟨u', hu, ht2⟩
  · cases hm' : m' with
    | nil =>
      subst hm'
      refine ⟨[], by simp [hRm], ?_⟩
      simpa using hcr.symm
    | cons m0 m'' =>
      exfalso
      have hmne : m' ≠ [] := by rw [hm']; simp
      have hlast : m'.getLast? = some ']' := by
        have h1 : REDACT.getLast? = some ']' := by decide
        rw [hRm, List.getLast?_append_of_ne_nil _ hmne] at h1
        exact h1
      have hmem : ']' ∈ m' := mem_of_getLast? hlast
      rcases List.append_eq_append_iff.mp hcr.symm with ⟨a', hca, hr⟩ | ⟨c', hmc, ht2'⟩
      · -- c = m' ++ a' : the closing bracket would be inside the match
        apply hbrR
        rw [hca]
        exact List.mem_append_left _ hmem
      · -- m' = c ++ c' : the match is inside the marker core
        apply hcore
        intro ch hch
        have hchm : ch ∈ m' := by rw [hmc]; exact List.mem_append_left _ hch
        have hchR : ch ∈ REDACT := by rw [hRm]; exact List.mem_append_right _ hchm
        exact redact_mem_core hchR (fun he => hbrL (he ▸ hch)) (fun he => hbrR (he ▸ hch))

/-- No new matches of a `\b`-free pattern `R` after substituting `R`
itself: every skipped position recorded a failed match, the marker cannot
host one, and matches cannot cross marker boundaries. -/
theorem noNewSelfCF {R : RE} (hwb : wbFree R = true)
    (hne : ∀ {w nw w' : Bool} {c : List Char}, Mat R w c nw w' → c ≠ [])
    (hbr : ∀ {w nw w' : Bool} {c : List Char}, Mat R w c nw w' → '[' ∉ c ∧ ']' ∉ c)
    (hcore : ∀ {w nw w' : Bool} {c : List Char}, Mat R w c nw w' →
      (∀ ch ∈ c, ch ∈ ("REDACTED" : String).data) → False) :
    ∀ {prev : Option Char} {s t : List Char}, SubR R REDACT prev s t → CleanCF R t := by
  intro prev s t h
  induction h with
  | nil =>
    intro u c r w0 w' ht hm
    rcases List.append_eq_nil.mp (List.append_eq_nil.mp ht.symm).1 with ⟨-, hc⟩
    exact hne hm hc
  | skip hnone hrec ih =>
    rename_i prev' ch cs t'
    intro u c r w0 w' ht hm
    cases u with
    | cons u0 u' =>
      rw [List.cons_append, List.cons_append, List.cons.injEq] at ht
      exact ih u' c r w0 w' ht.2 hm
    | nil =>
      rw [List.nil_append] at ht
      obtain ⟨rs, hs, -⟩ :=
        SubR_prefix c (hbr hm).1 prev' (ch :: cs) (ch :: t')
          (SubR.skip hnone hrec) r ht
      have hm' := Mat_ctxfree hwb hm (isWordO prev') (headWO rs)
      rw [hs] at hnone
      exact matchAt_complete hnone hm'
  | rep hm0 hlt hrec ih =>
    intro u c r w0 w' ht hm
    rw [List.append_assoc] at ht
    obtain ⟨u', rfl, ht2⟩ :=
      marker_case (hbr hm).1 (hbr hm).2 (hcore hm) ht
    exact ih u' c r w0 w' (by rw [ht2, List.append_assoc]) hm

/-- Substituting a different pattern `re'` creates no new matches of a
`\b`-free pattern `R`. -/
theorem noNewOtherCF {re' R : RE} (hwb : wbFree R = true)
    (hne : ∀ {w nw w' : Bool} {c : List Char}, Mat R w c nw w' → c ≠ [])
    (hbr : ∀ {w nw w' : Bool} {c : List Char}, Mat R w c nw w' → '[' ∉ c ∧ ']' ∉ c)
    (hcore : ∀ {w nw w' : Bool} {c : List Char}, Mat R w c nw w' →
      (∀ ch ∈ c, ch ∈ ("REDACTED" : String).data) → False) :
    ∀ {prev : Option Char} {s t : List Char}, SubR re' REDACT prev s t →
      CleanCF R s → CleanCF R t := by
  intro prev s t h
  induction h with
  | nil => exact fun hs => hs
  | skip hnone hrec ih =>
    rename_i prev' ch cs t'
    intro hcs
    intro u c r w0 w' ht hm
    cases u with
    | cons u0 u' =>
      rw [List.cons_append, List.cons_append, List.cons.injEq] at ht
      exact ih (CleanCF_cons hcs) u' c r w0 w' ht.2 hm
    | nil =>
      rw [List.nil_append] at ht
      obtain ⟨rs, hs, -⟩ :=
        SubR_prefix c (hbr hm).1 prev' (ch :: cs) (ch :: t')
          (SubR.skip hnone hrec) r ht
      have hm' := Mat_ctxfree hwb hm w0 (headWO rs)
      exact hcs [] c rs w0 _ (by rw [hs]; rfl) hm'
  | rep hm0 hlt hrec ih =>
    rename_i prev' s' r' t2
    intro hcs
    intro u c r w0 w' ht hm
    obtain ⟨cm, hsplit, -⟩ := matchAt_sound hm0
    rw [List.append_assoc] at ht
    obtain ⟨u', rfl, ht2⟩ :=
      marker_case (hbr hm).1 (hbr hm).2 (hcore hm) ht
    refine ih ?_ u' c r w0 w' (by rw [ht2, List.append_assoc]) hm
    rw [hsplit] at hcs
    exact CleanCF_append_left hcs

theorem endW_lastO {c : List Char} (hne : c ≠ []) (w : Bool) (prev : Option Char) :
    endW w c = isWordO (lastO prev c) := by
  unfold endW lastO
  cases hg : c.getLast? with
  | none => exact absurd (by simpa using hg) hne
  | some x => rfl

/-- No new `KEYLIKE` matches after substituting `KEYLIKE` itself.  The
context is threaded through a virtual previous character `pv` for the
output string, compatible with the input context `prev` in word-ness
whenever the suffix could start a match. -/
theorem noNewK :
    ∀ {prev : Option Char} {s t : List Char}, SubR KEY_RE REDACT prev s t →
      ∀ (pv : Option Char), (isWordO pv = isWordO prev ∨ headWO s = false) →
        ∀ (u c r : List Char) (w' : Bool), t = u ++ c ++ r →
          Mat KEY_RE (isWordO (lastO pv u)) c (headWO r) w' → False := by
  intro prev s t h
  induction h with
  | nil =>
    intro pv _ u c r w' ht hm
    obtain ⟨⟨d, cs, hcd, -⟩, -, -⟩ := Mat_key_struct hm
    rcases List.append_eq_nil.mp (List.append_eq_nil.mp ht.symm).1 with ⟨-, hc0⟩
    rw [hc0] at hcd
    simp at hcd
  | skip hnone hrec ih =>
    rename_i prev' ch cs t'
    intro pv hcompat u c r w' ht hm
    cases u with
    | cons u0 u' =>
      rw [List.cons_append, List.cons_append, List.cons.injEq] at ht
      obtain ⟨hchu, ht'⟩ := ht
      subst hchu
      rw [lastO_cons] at hm
      exact ih (some ch) (Or.inl rfl) u' c r w' ht' hm
    | nil =>
      rw [List.nil_append] at ht
      rw [lastO_nil] at hm
      obtain ⟨⟨d, cs', hcd, hwd⟩, hw0, hend⟩ := Mat_key_struct hm
      have hcne : c ≠ [] := by rw [hcd]; simp
      obtain ⟨rs, hs, hdisj⟩ :=
        SubR_prefix c (Mat_key_no_brack hm).1 prev' (ch :: cs) (ch :: t')
          (SubR.skip hnone hrec) r ht
      have hpv : isWordO pv = isWordO prev' := by
        rcases hcompat with hL | hR
        · exact hL
        · exfalso
          rw [hcd, List.cons_append, List.cons.injEq] at hs
          obtain ⟨hchd, -⟩ := hs
          have : headWO (ch :: cs) = isWordC ch := rfl
          rw [this, hchd, hwd] at hR
          exact Bool.true_eq_false.mp hR
      have hrr : headWO rs = headWO r := by
        rcases hdisj with ⟨hr0, hrs0⟩ | ⟨ch2, r2, rs2, hr2, hrs2⟩ | ⟨rr, hmm3⟩
        · rw [hr0, hrs0]
        · rw [hr2, hrs2]; rfl
        · obtain ⟨cm, hrs_eq, hm2⟩ := matchAt_sound hmm3
          obtain ⟨⟨d2, cs2, hcm2, hw2⟩, hctx0, -⟩ := Mat_key_struct hm2
          have h1 : headWO rs = true := by
            rw [hrs_eq, hcm2, List.cons_append]
            exact hw2
          have h2 : headWO r = true := by
            have he : endW (isWordO pv) c = isWordO (lastO prev' c) :=
              endW_lastO hcne _ _
            rw [he, hctx0] at hend
            cases hr : headWO r with
            | true => rfl
            | false => exact absurd hr.symm hend
          rw [h1, h2]
      rw [hpv, ← hrr] at hm
      rw [hs] at hnone
      exact matchAt_complete hnone hm
  | rep hm0 hlt hrec ih =>
    rename_i prev' s' r_a t2
    intro pv hcompat u c r w' ht hm
    rw [List.append_assoc] at ht
    obtain ⟨u', hu, ht2⟩ :=
      marker_case (Mat_key_no_brack hm).1 (Mat_key_no_brack hm).2 (Mat_key_core hm) ht
    subst hu
    have hmark : lastO pv REDACT = some ']' := by
      have hg : REDACT.getLast? = some ']' := by decide
      unfold lastO
      rw [hg]
    rw [lastO_append, hmark] at hm
    obtain ⟨cm, hsplit, hm1⟩ := matchAt_sound hm0
    obtain ⟨⟨d1, cs1, hcm1, hwd1⟩, -, hend1⟩ := Mat_key_struct hm1
    have hcmne : cm ≠ [] := by rw [hcm1]; simp
    have hpa : prevAfter prev' s' (s'.length - r_a.length) = lastO prev' cm := by
      rw [prevAfter_eq_lastO, hsplit]
      have hl : (cm ++ r_a).length - r_a.length = cm.length := by
        rw [List.length_append]; omega
      rw [hl, List.take_left]
    have hcompat' : isWordO (some ']')
        = isWordO (prevAfter prev' s' (s'.length - r_a.length))
        ∨ headWO r_a = false := by
      cases hwe : endW (isWordO prev') cm with
      | true =>
        right
        rw [hwe] at hend1
        cases hr : headWO r_a with
        | false => rfl
        | true => exact absurd hr.symm hend1
      | false =>
        left
        rw [hpa]
        have hlw : isWordO (lastO prev' cm) = false := by
          rw [← endW_lastO hcmne (isWordO prev') prev']
          exact hwe
        rw [hlw]
        decide
    refine ih (some ']') hcompat' u' c r w' ?_ hm
    rw [ht2, List.append_assoc]

/-- Every `PHONE` match contains a digit (the mandatory three-digit
block). -/
theorem Mat_phone_digit {w nw w' : Bool} {c : List Char}
    (h : Mat PHONE_RE w c nw w') : ∃ ch ∈ c, ch.isDigit = true := by
  obtain ⟨c1, c2, w1, rfl, h1, h2⟩ := Mat_seq_inv h
  obtain ⟨c3, c4, w2, rfl, h3, h4⟩ := Mat_seq_inv h2
  obtain ⟨hall, hlo, -⟩ := Mat_cls_inv h3
  cases hc3 : c3 with
  | nil => rw [hc3] at hlo; simp at hlo
  | cons d ds =>
    refine ⟨d, by simp, ?_⟩
    have := hall d (by rw [hc3]; simp)
    simpa [digitCls] using this

theorem noMatches_of_cleanCF {R : RE} {t : List Char}
    (h : CleanCF R t) : NoMatches R t := by
  intro u v ht
  cases hmm : matchAt R u.getLast? v with
  | none => rfl
  | some rr =>
    obtain ⟨cm, hv, hm⟩ := matchAt_sound hmm
    exact (h u cm rr _ _ (by rw [ht, hv, List.append_assoc]) hm).elim

theorem lastO_none (u : List Char) : lastO none u = u.getLast? := by
  unfold lastO
  cases u.getLast? <;> rfl

theorem noMatches_K {s t : List Char}
    (h : SubR KEY_RE REDACT none s t) : NoMatches KEY_RE t := by
  intro u v ht
  cases hmm : matchAt KEY_RE u.getLast? v with
  | none => rfl
  | some rr =>
    obtain ⟨cm, hv, hm⟩ := matchAt_sound hmm
    rw [← lastO_none] at hm
    exact (noNewK h none (Or.inl rfl) u cm rr _
      (by rw [ht, hv, List.append_assoc]) hm).elim

theorem hneK_lemma {w nw w' : Bool} {c : List Char}
    (h : Mat KEY_RE w c nw w') : c ≠ [] := by
  obtain ⟨⟨d, cs, hcd, -⟩, -, -⟩ := Mat_key_struct h
  rw [hcd]
  simp

theorem hneE_lemma {w nw w' : Bool} {c : List Char}
    (h : Mat EMAIL_RE w c nw w') : c ≠ [] :=
  List.ne_nil_of_mem (Mat_email_at h)

theorem hcoreE_lemma {w nw w' : Bool} {c : List Char}
    (h : Mat EMAIL_RE w c nw w')
    (hsub : ∀ ch ∈ c, ch ∈ ("REDACTED" : String).data) : False :=
  absurd (hsub '@' (Mat_email_at h)) (by decide)

theorem hcoreP_lemma {w nw w' : Bool} {c : List Char}
    (h : Mat PHONE_RE w c nw w')
    (hsub : ∀ ch ∈ c, ch ∈ ("REDACTED" : String).data) : False := by
  obtain ⟨ch, hmem, hd⟩ := Mat_phone_digit h
  have hin := hsub ch hmem
  have hno : ∀ x ∈ ("REDACTED" : String).data, x.isDigit = false := by decide
  rw [hno ch hin] at hd
  exact Bool.false_ne_true hd

/-- One scrub pass at the character-list level is a fixed point of a
second pass: EMAIL and PHONE matches cannot reappear (they are
`\b`-free, bracket-free and need `@`/digits absent from the marker core),
and KEYLIKE matches cannot reappear by the boundary analysis of
`noNewK`. -/
theorem scrub_chain_idem (l : List Char) :
    reSub KEY_RE REDACT (reSub PHONE_RE REDACT (reSub EMAIL_RE REDACT
      (reSub KEY_RE REDACT (reSub PHONE_RE REDACT (reSub EMAIL_RE REDACT l)))))
    = reSub KEY_RE REDACT (reSub PHONE_RE REDACT (reSub EMAIL_RE REDACT l)) := by
  have hsubE : ∀ x : List Char, SubR EMAIL_RE REDACT none x (reSub EMAIL_RE REDACT x) :=
    fun x => subGo_SubR (fun h => hneE_lemma h) (x.length + 1) none x (Nat.le_succ _)
  have hsubP : ∀ x : List Char, SubR PHONE_RE REDACT none x (reSub PHONE_RE REDACT x) :=
    fun x => subGo_SubR (fun h => Mat_phone_ne h) (x.length + 1) none x (Nat.le_succ _)
  have hsubK : ∀ x : List Char, SubR KEY_RE REDACT none x (reSub KEY_RE REDACT x) :=
    fun x => subGo_SubR (fun h => hneK_lemma h) (x.length + 1) none x (Nat.le_succ _)
  have hCE1 : CleanCF EMAIL_RE (reSub EMAIL_RE REDACT l) :=
    noNewSelfCF wbFree_email (fun h => hneE_lemma h)
      (fun h => Mat_email_no_brack h) (fun h => hcoreE_lemma h) (hsubE l)
  have hCE2 : CleanCF EMAIL_RE (reSub PHONE_RE REDACT (reSub EMAIL_RE REDACT l)) :=
    noNewOtherCF wbFree_email (fun h => hneE_lemma h)
      (fun h => Mat_email_no_brack h) (fun h => hcoreE_lemma h)
      (hsubP _) hCE1
  have hCE3 : CleanCF EMAIL_RE
      (reSub KEY_RE REDACT (reSub PHONE_RE REDACT (reSub EMAIL_RE REDACT l))) :=
    noNewOtherCF wbFree_email (fun h => hneE_lemma h)
      (fun h => Mat_email_no_brack h) (fun h => hcoreE_lemma h)
      (hsubK _) hCE2
  have hCP2 : CleanCF PHONE_RE (reSub PHONE_RE REDACT (reSub EMAIL_RE REDACT l)) :=
    noNewSelfCF wbFree_phone (fun h => Mat_phone_ne h)
      (fun h => Mat_phone_no_brack h) (fun h => hcoreP_lemma h) (hsubP _)
  have hCP3 : CleanCF PHONE_RE
      (reSub KEY_RE REDACT (reSub PHONE_RE REDACT (reSub EMAIL_RE REDACT l))) :=
    noNewOtherCF wbFree_phone (fun h => Mat_phone_ne h)
      (fun h => Mat_phone_no_brack h) (fun h => hcoreP_lemma h)
      (hsubK _) hCP2
  have hK3 : NoMatches KEY_RE
      (reSub KEY_RE REDACT (reSub PHONE_RE REDACT (reSub EMAIL_RE REDACT l))) :=
    noMatches_K (hsubK _)
  rw [reSub_id (noMatches_of_cleanCF hCE3), reSub_id (noMatches_of_cleanCF hCP3),
    reSub_id hK3]

/-- C5: the PII scrubber is idempotent — for every string `x`,
`pii_scrub (pii_scrub x) = pii_scrub x`, where `pii_scrub` is the ordered
composition of the EMAIL, PHONE and KEYLIKE regex substitutions, each
replacing matches with the fixed marker `[REDACTED]`. -/
theorem pii_scrub_idempotent (s : String) :
    pii_scrub (pii_scrub s) = pii_scrub s :=
  congrArg String.mk (scrub_chain_idem s.data)
